import Mathlib

/-!
ADS_set: separate-chaining hash set (`ADS_set.h`)

Shallow embedding of the class template `ADS_set<Key, N>` and proofs about it.

Modelling conventions.

* `size_type` values are natural numbers (a table of `2^64` buckets cannot be allocated,
  so no counter wraps).
* A bucket array `Node *table` is the list of its chains for the indices
  `0 .. table_size - 1`.  The extra slot `table[table_size]` allocated by `new Node[n+1]`
  is only ever used as an address (the iterator's `table_end`); it is never read or
  written, so it carries no data here.
* An `Element*` is the list of keys reached from it by following `nextElement`;
  `nullptr` is `[]`.  Two pointers into the same chain are equal exactly when the
  suffixes they denote are equal, because suffixes of one list differ in length.
* `max_lf` is the constant `0.7`, read as the exact rational `7/10`:
  `table_size * max_lf >= n` is `10 * n ≤ 7 * table_size` and
  `size_type(current_size / max_lf)` is `current_size * 10 / 7` (truncating division).
* `hasher{}` is an arbitrary function `Key → Nat`, `key_equal{}` is equality on `Key`,
  `N` is the template parameter.
-/

set_option linter.unusedSectionVars false

namespace ADS

/-- The data members `table`, `table_size`, `current_size` of `ADS_set<Key,N>`
(`max_lf` is the constant `0.7`). -/
structure ADS_set (Key : Type) where
  table : List (List Key)
  table_size : Nat
  current_size : Nat
deriving DecidableEq

/-- The data members of `ADS_set::Iterator`: `current_node` and `table_end` as indices
into the bucket array, `current_element` as the chain suffix it points to. -/
structure Iterator (Key : Type) where
  current_node : Nat
  current_element : List Key
  table_end : Nat
deriving DecidableEq

section Embedding

variable {Key : Type} [DecidableEq Key]

/-! ### Iterator -/

/-- The loop of the iterator constructor and of `operator++`:
`while (!current_element && current_node != table_end)
   { ++current_node; if (current_node != table_end) current_element = current_node->e; }`.
The first argument bounds the number of rounds; `table_end - current_node` rounds are
always enough (`Iterator.advance_exit`). -/
def Iterator.advance (table : List (List Key)) : Nat → Iterator Key → Iterator Key
  | 0, it => it
  | fuel + 1, it =>
    if it.current_element = [] ∧ it.current_node ≠ it.table_end then
      Iterator.advance table fuel
        { current_node := it.current_node + 1
          current_element :=
            if it.current_node + 1 ≠ it.table_end then table.getD (it.current_node + 1) []
            else it.current_element
          table_end := it.table_end }
    else it

/-- The constructor `Iterator(Node* n, Element* e, const Node* te)`. -/
def Iterator.ctor (table : List (List Key)) (n : Nat) (e : List Key) (te : Nat) :
    Iterator Key :=
  Iterator.advance table (te - n) { current_node := n, current_element := e, table_end := te }

/-- The dereference `operator*`: the key of `current_element` (`none` for `nullptr`). -/
def Iterator.deref (it : Iterator Key) : Option Key :=
  it.current_element.head?

/-- The pre-increment `operator++`. -/
def Iterator.inc (table : List (List Key)) (it : Iterator Key) : Iterator Key :=
  Iterator.advance table (it.table_end - it.current_node)
    { current_node := it.current_node
      current_element :=
        match it.current_element with
        | _ :: x :: rest => x :: rest
        | _ => []
      table_end := it.table_end }

/-- The comparison `operator==` of two iterators. -/
def Iterator.eq (lhs rhs : Iterator Key) : Bool :=
  decide (lhs.current_node = rhs.current_node) &&
    decide (lhs.current_element = rhs.current_element)

/-! ### The container -/

/-- The default constructor `ADS_set()`. -/
def ADS_set.ctor (N : Nat) : ADS_set Key :=
  { table := List.replicate N [], table_size := N, current_size := 0 }

/-- The bucket index `h(key) = hasher{}(key) % table_size`.  Every well-formed state has
`table_size ≥ 1`; for `table_size = 0` the C++ expression is undefined. -/
def ADS_set.h (hasher : Key → Nat) (s : ADS_set Key) (key : Key) : Nat :=
  hasher key % s.table_size

/-- The chain walk of `locate`, started at `cursorElement`. -/
def locateFrom (key : Key) : List Key → List Key
  | [] => []
  | k :: rest => if k = key then k :: rest else locateFrom key rest

/-- The member `locate(key)`: the element holding `key`, or `nullptr`. -/
def ADS_set.locate (hasher : Key → Nat) (s : ADS_set Key) (key : Key) : List Key :=
  locateFrom key (s.table.getD (s.h hasher key) [])

/-- The member `count(key)`, i.e. `locate(key) != nullptr` as a `size_type`. -/
def ADS_set.count (hasher : Key → Nat) (s : ADS_set Key) (key : Key) : Nat :=
  if s.locate hasher key ≠ [] then 1 else 0

/-- The members `size()`. -/
def ADS_set.size (s : ADS_set Key) : Nat := s.current_size

/-- The member `empty()`. -/
def ADS_set.empty (s : ADS_set Key) : Bool := decide (s.current_size = 0)

/-- The member `begin()`. -/
def ADS_set.begin (s : ADS_set Key) : Iterator Key :=
  Iterator.ctor s.table 0 (s.table.getD 0 []) s.table_size

/-- The member `end()`. -/
def ADS_set.end_ (s : ADS_set Key) : Iterator Key :=
  Iterator.ctor s.table s.table_size [] s.table_size

/-- The member `find(key)`. -/
def ADS_set.find (hasher : Key → Nat) (s : ADS_set Key) (key : Key) : Iterator Key :=
  if s.locate hasher key ≠ [] then
    Iterator.ctor s.table (s.h hasher key) (s.locate hasher key) s.table_size
  else s.end_

/-- The member `add(key)`; returns the new state and the returned `Element*`. -/
def ADS_set.add (hasher : Key → Nat) (s : ADS_set Key) (key : Key) :
    ADS_set Key × List Key :=
  if s.count hasher key ≠ 0 then (s, s.locate hasher key)
  else if s.table.getD (s.h hasher key) [] = [] then
    ({ table := s.table.set (s.h hasher key) [key]
       table_size := s.table_size
       current_size := s.current_size + 1 }, [key])
  else
    ({ table := s.table.set (s.h hasher key) (key :: s.table.getD (s.h hasher key) [])
       table_size := s.table_size
       current_size := s.current_size + 1 },
     key :: s.table.getD (s.h hasher key) [])

/-- The member `addElement(e)` used while rehashing: relinks the element `e`
(only its key matters, its `nextElement` is overwritten) at the head of its chain. -/
def ADS_set.addElement (hasher : Key → Nat) (s : ADS_set Key) (e : List Key) :
    ADS_set Key × List Key :=
  match e with
  | [] => (s, [])
  | key :: _ =>
    if s.table.getD (s.h hasher key) [] = [] then
      ({ table := s.table.set (s.h hasher key) [key]
         table_size := s.table_size
         current_size := s.current_size + 1 }, [key])
    else
      ({ table := s.table.set (s.h hasher key) (key :: s.table.getD (s.h hasher key) [])
         table_size := s.table_size
         current_size := s.current_size + 1 },
       key :: s.table.getD (s.h hasher key) [])

/-- The inner loop of `rehash`:
`while (cursorElement != nullptr) { elementToAdd = cursorElement;
   cursorElement = cursorElement->nextElement; addElement(elementToAdd); }`. -/
def ADS_set.relinkChain (hasher : Key → Nat) (s : ADS_set Key) : List Key → ADS_set Key
  | [] => s
  | key :: rest => ADS_set.relinkChain hasher (s.addElement hasher (key :: rest)).1 rest

/-- The member `rehash(n)`.  (`table` is never `nullptr` once an object is constructed,
so the early return on `old_table == nullptr` is not taken.) -/
def ADS_set.rehash (N : Nat) (hasher : Key → Nat) (s : ADS_set Key) (n : Nat) :
    ADS_set Key :=
  let new_table_size := max N (max n (s.current_size * 10 / 7))
  (List.range s.table_size).foldl
    (fun acc idx => acc.relinkChain hasher (s.table.getD idx []))
    { table := List.replicate new_table_size []
      table_size := new_table_size
      current_size := 0 }

/-- The loop `while (new_table_size * max_lf < n) ++(new_table_size *= 2);` of `reserve`.
The first argument bounds the number of rounds; `2 * n` rounds are always enough
(`growLoop_exit`). -/
def growLoop (n : Nat) : Nat → Nat → Nat
  | 0, new_table_size => new_table_size
  | fuel + 1, new_table_size =>
    if 7 * new_table_size < 10 * n then growLoop n fuel (2 * new_table_size + 1)
    else new_table_size

/-- The member `reserve(n)`. -/
def ADS_set.reserve (N : Nat) (hasher : Key → Nat) (s : ADS_set Key) (n : Nat) :
    ADS_set Key :=
  if 10 * n ≤ 7 * s.table_size then s
  else
    s.rehash N hasher
      (if growLoop n (2 * n) s.table_size % 2 = 0 then growLoop n (2 * n) s.table_size + 1
       else growLoop n (2 * n) s.table_size)

/-- The member `insert(const key_type&)`; returns the new state and the returned pair. -/
def ADS_set.insert (N : Nat) (hasher : Key → Nat) (s : ADS_set Key) (key : Key) :
    ADS_set Key × Iterator Key × Bool :=
  if s.locate hasher key ≠ [] then
    (s, Iterator.ctor s.table (s.h hasher key) (s.locate hasher key) s.table_size, false)
  else
    (((s.reserve N hasher (s.current_size + 1)).add hasher key).1,
     Iterator.ctor ((s.reserve N hasher (s.current_size + 1)).add hasher key).1.table
       (((s.reserve N hasher (s.current_size + 1)).add hasher key).1.h hasher key)
       ((s.reserve N hasher (s.current_size + 1)).add hasher key).2
       ((s.reserve N hasher (s.current_size + 1)).add hasher key).1.table_size,
     true)

/-- The member `insert(InputIt first, InputIt last)`, the range given as a list. -/
def ADS_set.insertRange (N : Nat) (hasher : Key → Nat) (s : ADS_set Key) :
    List Key → ADS_set Key
  | [] => s
  | key :: rest =>
    if s.count hasher key = 0 then
      ADS_set.insertRange N hasher
        ((s.reserve N hasher (s.current_size + 1)).add hasher key).1 rest
    else ADS_set.insertRange N hasher s rest

/-- The `else` branch of `erase`: walk `cursorElement` until its `nextElement` is `delEl`,
then link it to `delEl->nextElement`. -/
def unlinkAfter (delEl : List Key) : List Key → List Key
  | [] => []
  | k :: rest => if rest = delEl then k :: delEl.tail else k :: unlinkAfter delEl rest

/-- The member `erase(key)`; returns the new state and the returned count.  (When an
element is found in a well-formed state, `current_size ≥ 1`, so `--current_size` does
not wrap.) -/
def ADS_set.erase (hasher : Key → Nat) (s : ADS_set Key) (key : Key) : ADS_set Key × Nat :=
  if s.locate hasher key ≠ [] then
    if s.table.getD (s.h hasher key) [] = s.locate hasher key then
      ({ table := s.table.set (s.h hasher key) (s.locate hasher key).tail
         table_size := s.table_size
         current_size := s.current_size - 1 }, 1)
    else
      ({ table := s.table.set (s.h hasher key)
           (unlinkAfter (s.locate hasher key) (s.table.getD (s.h hasher key) []))
         table_size := s.table_size
         current_size := s.current_size - 1 }, 1)
  else (s, 0)

/-- The member `swap(other)`: the pair of states of `*this` and `other` afterwards. -/
def ADS_set.swap (s other : ADS_set Key) : ADS_set Key × ADS_set Key :=
  (other, s)

/-- The member `clear()`: swap with a default-constructed temporary. -/
def ADS_set.clear (N : Nat) (s : ADS_set Key) : ADS_set Key :=
  (s.swap (ADS_set.ctor N)).1

/-- The range-based loop `for (const auto &k : s)`, i.e.
`for (it = begin(); it != end(); ++it) { k = *it; ... }`: the keys it visits, in order.
The first argument bounds the number of rounds. -/
def ADS_set.visitFrom (s : ADS_set Key) : Nat → Iterator Key → List Key
  | 0, _ => []
  | fuel + 1, it =>
    if Iterator.eq it s.end_ then []
    else
      match it.current_element with
      | [] => []
      | k :: _ => k :: ADS_set.visitFrom s fuel (it.inc s.table)

/-- The keys visited by `for (const auto &k : s)`; one round per stored element is
enough (`visitFrom_eq_remaining`, `visit_eq_flatten`). -/
def ADS_set.visit (s : ADS_set Key) : List Key :=
  s.visitFrom (s.table.map List.length).sum s.begin

/-- The copy constructor `ADS_set(const ADS_set &other)`. -/
def ADS_set.copy (N : Nat) (hasher : Key → Nat) (other : ADS_set Key) : ADS_set Key :=
  other.visit.foldl (fun s k => (s.add hasher k).1)
    ((ADS_set.ctor N).rehash N hasher other.table_size)

/-- The copy assignment `operator=(const ADS_set &other)`: copy, then swap. -/
def ADS_set.assign (N : Nat) (hasher : Key → Nat) (s other : ADS_set Key) : ADS_set Key :=
  (s.swap (ADS_set.copy N hasher other)).1

/-- The assignment `operator=(std::initializer_list<key_type> ilist)`. -/
def ADS_set.assignList (N : Nat) (hasher : Key → Nat) (s : ADS_set Key) (ilist : List Key) :
    ADS_set Key :=
  (s.swap ((ADS_set.ctor N).insertRange N hasher ilist)).1

/-- The friend `operator==` of two sets. -/
def ADS_set.eq (hasher : Key → Nat) (lhs rhs : ADS_set Key) : Bool :=
  if lhs.current_size ≠ rhs.current_size then false
  else lhs.visit.all (fun k => decide (rhs.count hasher k ≠ 0))

/-- The friend `operator!=` of two sets. -/
def ADS_set.ne (hasher : Key → Nat) (lhs rhs : ADS_set Key) : Bool :=
  !(ADS_set.eq hasher lhs rhs)

end Embedding

/-! ## Vocabulary of the specification

Predicates and auxiliary states in which the properties below are stated: the class
invariant, the reachable states, positions of an iteration, and a few concrete sets. -/

section Vocabulary

variable {Key : Type} [DecidableEq Key]

/-- Proof device: the state after a new element holding `key` has been linked in front of
the chain of bucket `h(key)`.  Both branches of `add` and of `addElement` produce
this state (`add_of_count_zero`, `addElement_cons`). -/
def ADS_set.link (hasher : Key → Nat) (s : ADS_set Key) (key : Key) : ADS_set Key :=
  { table := s.table.set (s.h hasher key) (key :: s.table.getD (s.h hasher key) [])
    table_size := s.table_size
    current_size := s.current_size + 1 }

/-- The class invariant of `ADS_set`: the bucket array has `table_size ≥ 1` buckets, every
stored key sits in the chain of bucket `hasher(key) % table_size`, no chain holds a key
twice, and `current_size` is the number of stored elements. -/
structure WF (hasher : Key → Nat) (s : ADS_set Key) : Prop where
  length_eq : s.table.length = s.table_size
  pos : 0 < s.table_size
  placed : ∀ i k, k ∈ s.table.getD i [] → hasher k % s.table_size = i
  nodup : ∀ i, (s.table.getD i []).Nodup
  size_eq : s.current_size = (s.table.map List.length).sum

/-- Executable test of the class invariant `WF`. -/
def WF.check (hasher : Key → Nat) (s : ADS_set Key) : Bool :=
  decide (s.table.length = s.table_size) && decide (0 < s.table_size) &&
    (List.range s.table.length).all (fun i =>
      (s.table.getD i []).all (fun k => decide (hasher k % s.table_size = i)) &&
        decide (s.table.getD i []).Nodup) &&
    decide (s.current_size = (s.table.map List.length).sum)

/-- Proof device: an iterator into `table` that either points to an element of an
existing bucket or is the end position. -/
def Iterator.Valid (table : List (List Key)) (it : Iterator Key) : Prop :=
  it.table_end = table.length ∧
    ((it.current_element ≠ [] ∧ it.current_node < table.length) ∨
      (it.current_element = [] ∧ it.current_node = table.length))

/-- Proof device: the keys from the current element to the end of the current chain,
followed by the chains of all later buckets. -/
def Iterator.remaining (table : List (List Key)) (it : Iterator Key) : List Key :=
  it.current_element ++ (table.drop (it.current_node + 1)).flatten

/-- The states an `ADS_set<Key,N>` object can be in: default construction followed by
any sequence of the public mutating operations (the constructors from a range or an
initializer list are default construction followed by a bulk insert). -/
inductive Reachable (N : Nat) (hasher : Key → Nat) : ADS_set Key → Prop
  | ctor : Reachable N hasher (ADS_set.ctor N)
  | insert {s : ADS_set Key} (key : Key) :
      Reachable N hasher s → Reachable N hasher (s.insert N hasher key).1
  | insertRange {s : ADS_set Key} (xs : List Key) :
      Reachable N hasher s → Reachable N hasher (s.insertRange N hasher xs)
  | erase {s : ADS_set Key} (key : Key) :
      Reachable N hasher s → Reachable N hasher (s.erase hasher key).1
  | clear {s : ADS_set Key} :
      Reachable N hasher s → Reachable N hasher (s.clear N)
  | copy {other : ADS_set Key} :
      Reachable N hasher other → Reachable N hasher (ADS_set.copy N hasher other)
  | assign {s other : ADS_set Key} :
      Reachable N hasher s → Reachable N hasher other →
        Reachable N hasher (s.assign N hasher other)
  | assignList {s : ADS_set Key} (ilist : List Key) :
      Reachable N hasher s → Reachable N hasher (s.assignList N hasher ilist)
  | swap_this {s other : ADS_set Key} :
      Reachable N hasher s → Reachable N hasher other → Reachable N hasher (s.swap other).1
  | swap_other {s other : ADS_set Key} :
      Reachable N hasher s → Reachable N hasher other → Reachable N hasher (s.swap other).2

/-- The invariants of reachable states: the class invariant, the minimum bucket count
and the load-factor bound. -/
structure Inv (N : Nat) (hasher : Key → Nat) (s : ADS_set Key) : Prop where
  wf : WF hasher s
  min_size : N ≤ s.table_size
  load : 10 * s.current_size ≤ 7 * s.table_size

/-- A set with `N = 3` and `hash(x) = x` holding 3 and 5: one more key exceeds the load
factor (`3 * 0.7 < 3`). -/
def fullSmall : ADS_set Nat :=
  { table := [[3], [], [5]], table_size := 3, current_size := 2 }

/-- The set with `N = 7` and `hash(x) = x` after inserting 3, 10, 17 in this order. -/
def scenario : ADS_set Nat :=
  { table := [[], [], [], [17, 10, 3], [], [], []], table_size := 7, current_size := 3 }

/-- The set with `N = 7` and `hash(x) = x` after inserting 3, 10, 5 in this order: two
chains, separated by an empty bucket. -/
def spread : ADS_set Nat :=
  { table := [[], [], [], [10, 3], [], [5], []], table_size := 7, current_size := 3 }

/-- The keys 3 and 5 of `fullSmall`, stored in 7 buckets instead of 3. -/
def fullSmallWide : ADS_set Nat :=
  { table := [[], [], [], [3], [], [5], []], table_size := 7, current_size := 2 }

/-- A set with `N = 3` and `hash(x) = x` after inserting 4, 9, 1, 8 in this order: 7
buckets, the chain of bucket 1 holds two keys. -/
def grown : ADS_set Nat :=
  { table := [[], [8, 1], [9], [], [4], [], []], table_size := 7, current_size := 4 }

/-- The placement and uniqueness invariant: the table has `table_size` buckets, every
stored key `k` sits in the chain of bucket `hasher(k) % table_size`, no two stored
elements hold equal keys, and `current_size` is the number of stored elements. -/
def PlacementInv (hasher : Key → Nat) (s : ADS_set Key) : Prop :=
  s.table.length = s.table_size ∧
    (∀ i k, k ∈ s.table.getD i [] → i < s.table_size ∧ i = hasher k % s.table_size) ∧
    s.table.flatten.Nodup ∧
    s.current_size = s.table.flatten.length

/-- The set built by inserting the keys `xs` one by one, in order, into a
default-constructed set. -/
def build (N : Nat) (hasher : Key → Nat) (xs : List Key) : ADS_set Key :=
  xs.foldl (fun acc key => (acc.insert N hasher key).1) (ADS_set.ctor N)

end Vocabulary

/-! ## Lists of chains -/

section Chains

variable {α β : Type}

theorem getD_set_self (t : List (List α)) (i : Nat) (c : List α) (hi : i < t.length) :
    (t.set i c).getD i [] = c := by
  induction t generalizing i with
  | nil => simp at hi
  | cons a t ih =>
    cases i with
    | zero => rfl
    | succ i => exact ih i (by simpa using hi)

theorem getD_set_other (t : List (List α)) (i j : Nat) (c : List α) (hij : i ≠ j) :
    (t.set i c).getD j [] = t.getD j [] := by
  induction t generalizing i j with
  | nil => rfl
  | cons a t ih =>
    cases i with
    | zero =>
      cases j with
      | zero => exact absurd rfl hij
      | succ j => rfl
    | succ i =>
      cases j with
      | zero => rfl
      | succ j => exact ih i j (fun h => hij (by rw [h]))

theorem getD_of_length_le (t : List (List α)) (i : Nat) (hi : t.length ≤ i) :
    t.getD i [] = [] := by
  induction t generalizing i with
  | nil => rfl
  | cons a t ih =>
    cases i with
    | zero => simp at hi
    | succ i => exact ih i (by simpa using hi)

theorem getD_replicate_nil (m i : Nat) :
    (List.replicate m ([] : List α)).getD i [] = [] := by
  induction m generalizing i with
  | zero => rfl
  | succ m ih =>
    cases i with
    | zero => rfl
    | succ i => exact ih i

theorem mem_flatten_iff_getD (t : List (List α)) (k : α) :
    k ∈ t.flatten ↔ ∃ i, k ∈ t.getD i [] := by
  induction t with
  | nil => simp
  | cons a t ih =>
    rw [List.flatten_cons, List.mem_append, ih]
    constructor
    · rintro (h | ⟨i, h⟩)
      · exact ⟨0, h⟩
      · exact ⟨i + 1, h⟩
    · rintro ⟨i, h⟩
      cases i with
      | zero => exact Or.inl h
      | succ i => exact Or.inr ⟨i, h⟩

theorem sum_length_set (t : List (List α)) (i : Nat) (c : List α) (hi : i < t.length) :
    ((t.set i c).map List.length).sum + (t.getD i []).length
      = (t.map List.length).sum + c.length := by
  induction t generalizing i with
  | nil => simp at hi
  | cons a t ih =>
    cases i with
    | zero =>
      simp only [List.set_cons_zero, List.map_cons, List.sum_cons, List.getD_cons_zero]
      omega
    | succ i =>
      have := ih i (by simpa using hi)
      simp only [List.set_cons_succ, List.map_cons, List.sum_cons, List.getD_cons_succ]
      omega

theorem map_range_getD (t : List (List α)) :
    (List.range t.length).map (fun i => t.getD i []) = t := by
  apply List.ext_getElem
  · simp
  · intro i h1 h2
    simp only [List.getElem_map, List.getElem_range]
    exact List.getD_eq_getElem _ _ h2

theorem foldl_range_getD (f : β → List α → β) (b : β) (t : List (List α)) :
    (List.range t.length).foldl (fun acc i => f acc (t.getD i [])) b = t.foldl f b := by
  conv_rhs => rw [← map_range_getD t]
  rw [List.foldl_map]

end Chains

/-! ## Lookup -/

section Lookup

variable {Key : Type} [DecidableEq Key]

theorem locateFrom_eq_nil_iff (key : Key) (c : List Key) :
    locateFrom key c = [] ↔ key ∉ c := by
  induction c with
  | nil => simp [locateFrom]
  | cons k rest ih =>
    by_cases hk : k = key
    · simp [locateFrom, hk]
    · have hk' : ¬ key = k := fun h => hk h.symm
      simp [locateFrom, hk, hk', ih]

theorem locateFrom_head (key : Key) (c : List Key) (hc : locateFrom key c ≠ []) :
    (locateFrom key c).head? = some key := by
  induction c with
  | nil => simp [locateFrom] at hc
  | cons k rest ih =>
    by_cases hk : k = key
    · simp [locateFrom, hk]
    · simp only [locateFrom, hk, if_false] at hc ⊢
      exact ih hc

theorem locate_ne_nil_iff (hasher : Key → Nat) (s : ADS_set Key) (key : Key) :
    s.locate hasher key ≠ [] ↔ key ∈ s.table.getD (s.h hasher key) [] := by
  unfold ADS_set.locate
  rw [Ne, locateFrom_eq_nil_iff, not_not]

theorem count_eq_one_iff (hasher : Key → Nat) (s : ADS_set Key) (key : Key) :
    s.count hasher key = 1 ↔ key ∈ s.table.getD (s.h hasher key) [] := by
  unfold ADS_set.count
  rw [← locate_ne_nil_iff]
  split <;> simp_all

theorem count_eq_zero_iff (hasher : Key → Nat) (s : ADS_set Key) (key : Key) :
    s.count hasher key = 0 ↔ key ∉ s.table.getD (s.h hasher key) [] := by
  unfold ADS_set.count
  rw [← locate_ne_nil_iff]
  split <;> simp_all

theorem count_eq_ite (hasher : Key → Nat) (s : ADS_set Key) (key : Key) :
    s.count hasher key = if key ∈ s.table.getD (s.h hasher key) [] then 1 else 0 := by
  split
  · rwa [count_eq_one_iff]
  · rwa [count_eq_zero_iff]

end Lookup

/-! ## Linking a key at the head of its chain -/

section Link

variable {Key : Type} [DecidableEq Key]

theorem add_of_count_zero (hasher : Key → Nat) (s : ADS_set Key) (key : Key)
    (hc : s.count hasher key = 0) :
    s.add hasher key = (s.link hasher key, key :: s.table.getD (s.h hasher key) []) := by
  unfold ADS_set.add ADS_set.link
  rw [if_neg (by simp [hc])]
  split
  · next he => rw [he]
  · rfl

theorem add_of_count_ne_zero (hasher : Key → Nat) (s : ADS_set Key) (key : Key)
    (hc : s.count hasher key ≠ 0) :
    s.add hasher key = (s, s.locate hasher key) := by
  unfold ADS_set.add
  rw [if_pos hc]

theorem addElement_cons (hasher : Key → Nat) (s : ADS_set Key) (key : Key) (rest : List Key) :
    s.addElement hasher (key :: rest)
      = (s.link hasher key, key :: s.table.getD (s.h hasher key) []) := by
  simp only [ADS_set.addElement, ADS_set.link]
  split
  · next he => rw [he]
  · rfl

theorem relinkChain_eq_foldl (hasher : Key → Nat) (s : ADS_set Key) (c : List Key) :
    s.relinkChain hasher c = c.foldl (ADS_set.link hasher) s := by
  induction c generalizing s with
  | nil => rfl
  | cons k rest ih =>
    rw [ADS_set.relinkChain, addElement_cons, ih, List.foldl_cons]

theorem rehash_eq_foldl (N : Nat) (hasher : Key → Nat) (s : ADS_set Key) (n : Nat)
    (hlen : s.table.length = s.table_size) :
    s.rehash N hasher n
      = s.table.flatten.foldl (ADS_set.link hasher)
          { table := List.replicate (max N (max n (s.current_size * 10 / 7))) []
            table_size := max N (max n (s.current_size * 10 / 7))
            current_size := 0 } := by
  unfold ADS_set.rehash
  simp only [relinkChain_eq_foldl]
  rw [← hlen, foldl_range_getD (fun acc c => List.foldl (ADS_set.link hasher) acc c),
    List.foldl_flatten]

theorem link_getD (hasher : Key → Nat) (s : ADS_set Key) (key : Key) (j : Nat)
    (hlen : s.table.length = s.table_size) (hpos : 0 < s.table_size) :
    (s.link hasher key).table.getD j []
      = if hasher key % s.table_size = j then key :: s.table.getD j []
        else s.table.getD j [] := by
  unfold ADS_set.link ADS_set.h
  simp only
  split
  · next hj =>
    subst hj
    exact getD_set_self _ _ _ (by rw [hlen]; exact Nat.mod_lt _ hpos)
  · next hj => exact getD_set_other _ _ _ _ hj

theorem foldl_link_table_size (hasher : Key → Nat) (s : ADS_set Key) (ks : List Key) :
    (ks.foldl (ADS_set.link hasher) s).table_size = s.table_size := by
  induction ks generalizing s with
  | nil => rfl
  | cons k ks ih => rw [List.foldl_cons, ih]; rfl

theorem foldl_link_length (hasher : Key → Nat) (s : ADS_set Key) (ks : List Key) :
    (ks.foldl (ADS_set.link hasher) s).table.length = s.table.length := by
  induction ks generalizing s with
  | nil => rfl
  | cons k ks ih => rw [List.foldl_cons, ih]; simp [ADS_set.link]

theorem foldl_link_current_size (hasher : Key → Nat) (s : ADS_set Key) (ks : List Key) :
    (ks.foldl (ADS_set.link hasher) s).current_size = s.current_size + ks.length := by
  induction ks generalizing s with
  | nil => rfl
  | cons k ks ih =>
    rw [List.foldl_cons, ih]
    simp only [ADS_set.link, List.length_cons]
    omega

theorem link_total (hasher : Key → Nat) (s : ADS_set Key) (key : Key)
    (hlen : s.table.length = s.table_size) (hpos : 0 < s.table_size) :
    ((s.link hasher key).table.map List.length).sum = (s.table.map List.length).sum + 1 := by
  have hi : s.h hasher key < s.table.length := by
    rw [hlen]; exact Nat.mod_lt _ hpos
  have := sum_length_set s.table (s.h hasher key) (key :: s.table.getD (s.h hasher key) []) hi
  simp only [List.length_cons] at this
  simp only [ADS_set.link]
  omega

theorem foldl_link_total (hasher : Key → Nat) (s : ADS_set Key) (ks : List Key)
    (hlen : s.table.length = s.table_size) (hpos : 0 < s.table_size) :
    (((ks.foldl (ADS_set.link hasher) s).table).map List.length).sum
      = (s.table.map List.length).sum + ks.length := by
  induction ks generalizing s with
  | nil => rfl
  | cons k ks ih =>
    rw [List.foldl_cons, ih (s.link hasher k) (by simpa [ADS_set.link] using hlen) hpos,
      link_total hasher s k hlen hpos, List.length_cons]
    omega

theorem foldl_link_getD (hasher : Key → Nat) (s : ADS_set Key) (ks : List Key) (j : Nat)
    (hlen : s.table.length = s.table_size) (hpos : 0 < s.table_size) :
    (ks.foldl (ADS_set.link hasher) s).table.getD j []
      = (ks.filter (fun k => decide (hasher k % s.table_size = j))).reverse
          ++ s.table.getD j [] := by
  induction ks generalizing s with
  | nil => rfl
  | cons k ks ih =>
    rw [List.foldl_cons, ih (s.link hasher k) (by simpa [ADS_set.link] using hlen) hpos,
      link_getD hasher s k j hlen hpos]
    have hts : (s.link hasher k).table_size = s.table_size := rfl
    rw [hts, List.filter_cons]
    by_cases hj : hasher k % s.table_size = j
    · simp [hj]
    · simp [hj]

end Link

/-! ## Well-formed states -/

section WellFormed

variable {Key : Type} [DecidableEq Key]

theorem WF.mem_flatten_iff {hasher : Key → Nat} {s : ADS_set Key} (hs : WF hasher s)
    (key : Key) : key ∈ s.table.flatten ↔ key ∈ s.table.getD (s.h hasher key) [] := by
  rw [mem_flatten_iff_getD]
  constructor
  · rintro ⟨i, hi⟩
    have := hs.placed i key hi
    unfold ADS_set.h
    rwa [this]
  · intro h
    exact ⟨_, h⟩

theorem WF.count_one_iff_mem {hasher : Key → Nat} {s : ADS_set Key} (hs : WF hasher s)
    (key : Key) : s.count hasher key = 1 ↔ key ∈ s.table.flatten := by
  rw [count_eq_one_iff, hs.mem_flatten_iff]

theorem WF.count_zero_iff_not_mem {hasher : Key → Nat} {s : ADS_set Key} (hs : WF hasher s)
    (key : Key) : s.count hasher key = 0 ↔ key ∉ s.table.flatten := by
  rw [count_eq_zero_iff, hs.mem_flatten_iff]

theorem WF.nodup_flatten {hasher : Key → Nat} {s : ADS_set Key} (hs : WF hasher s) :
    s.table.flatten.Nodup := by
  rw [List.nodup_flatten]
  constructor
  · intro l hl
    obtain ⟨i, hi, rfl⟩ := List.mem_iff_getElem.1 hl
    rw [← List.getD_eq_getElem s.table [] hi]
    exact hs.nodup i
  · rw [List.pairwise_iff_getElem]
    intro i j hi hj hij a ha hb
    rw [← List.getD_eq_getElem s.table [] hi] at ha
    rw [← List.getD_eq_getElem s.table [] hj] at hb
    have h1 := hs.placed i a ha
    have h2 := hs.placed j a hb
    omega

theorem WF.size_eq_length_flatten {hasher : Key → Nat} {s : ADS_set Key} (hs : WF hasher s) :
    s.size = s.table.flatten.length := by
  rw [List.length_flatten]
  exact hs.size_eq

theorem WF.ctor (hasher : Key → Nat) (N : Nat) (hN : 0 < N) :
    WF hasher (ADS_set.ctor N : ADS_set Key) where
  length_eq := by simp [ADS_set.ctor]
  pos := hN
  placed := by
    intro i k hk
    simp [ADS_set.ctor, getD_replicate_nil] at hk
  nodup := by
    intro i
    simp [ADS_set.ctor, getD_replicate_nil]
  size_eq := by
    simp [ADS_set.ctor]

theorem WF.link {hasher : Key → Nat} {s : ADS_set Key} (hs : WF hasher s) (key : Key)
    (hc : s.count hasher key = 0) : WF hasher (s.link hasher key) where
  length_eq := by simpa [ADS_set.link] using hs.length_eq
  pos := hs.pos
  placed := by
    intro i k hk
    rw [link_getD hasher s key i hs.length_eq hs.pos] at hk
    have hts : (s.link hasher key).table_size = s.table_size := rfl
    rw [hts]
    split at hk
    · next hi =>
      rcases List.mem_cons.1 hk with h | h
      · rw [h]; exact hi
      · exact hs.placed i k h
    · exact hs.placed i k hk
  nodup := by
    intro i
    rw [link_getD hasher s key i hs.length_eq hs.pos]
    split
    · next hi =>
      refine List.nodup_cons.2 ⟨?_, hs.nodup i⟩
      rw [count_eq_zero_iff] at hc
      unfold ADS_set.h at hc
      rwa [hi] at hc
    · exact hs.nodup i
  size_eq := by
    rw [link_total hasher s key hs.length_eq hs.pos, ← hs.size_eq]
    rfl

/-- After `rehash(n)` the chain of the new bucket `j` holds, in reversed order, the keys
met when walking the old buckets in index order that hash to `j` in the new table. -/
theorem rehash_getD (N : Nat) (hasher : Key → Nat) (s : ADS_set Key) (n j : Nat)
    (hlen : s.table.length = s.table_size)
    (hpos : 0 < max N (max n (s.current_size * 10 / 7))) :
    (s.rehash N hasher n).table.getD j []
      = (s.table.flatten.filter
          (fun k => decide (hasher k % max N (max n (s.current_size * 10 / 7)) = j))).reverse := by
  rw [rehash_eq_foldl N hasher s n hlen, foldl_link_getD hasher _ _ j (by simp) hpos]
  simp [getD_replicate_nil]

theorem rehash_table_size (N : Nat) (hasher : Key → Nat) (s : ADS_set Key) (n : Nat)
    (hlen : s.table.length = s.table_size) :
    (s.rehash N hasher n).table_size = max N (max n (s.current_size * 10 / 7)) := by
  rw [rehash_eq_foldl N hasher s n hlen, foldl_link_table_size]

theorem WF.rehash {hasher : Key → Nat} {s : ADS_set Key} (hs : WF hasher s) (N n : Nat)
    (hpos : 0 < max N (max n (s.current_size * 10 / 7))) :
    WF hasher (s.rehash N hasher n) where
  length_eq := by
    rw [rehash_eq_foldl N hasher s n hs.length_eq, foldl_link_length, foldl_link_table_size]
    simp
  pos := by
    rw [rehash_table_size N hasher s n hs.length_eq]
    exact hpos
  placed := by
    intro i k hk
    rw [rehash_getD N hasher s n i hs.length_eq hpos] at hk
    rw [rehash_table_size N hasher s n hs.length_eq]
    simpa using (List.mem_filter.1 (List.mem_reverse.1 hk)).2
  nodup := by
    intro i
    rw [rehash_getD N hasher s n i hs.length_eq hpos]
    exact List.nodup_reverse.2 (hs.nodup_flatten.filter _)
  size_eq := by
    rw [rehash_eq_foldl N hasher s n hs.length_eq, foldl_link_current_size,
      foldl_link_total hasher _ _ (by simp) hpos]
    simp

theorem WF.rehash_current_size {hasher : Key → Nat} {s : ADS_set Key} (hs : WF hasher s)
    (N n : Nat) : (s.rehash N hasher n).current_size = s.current_size := by
  rw [rehash_eq_foldl N hasher s n hs.length_eq, foldl_link_current_size,
    hs.size_eq, List.length_flatten]
  simp

theorem WF.rehash_mem_flatten {hasher : Key → Nat} {s : ADS_set Key} (hs : WF hasher s)
    (N n : Nat) (hpos : 0 < max N (max n (s.current_size * 10 / 7))) (key : Key) :
    key ∈ (s.rehash N hasher n).table.flatten ↔ key ∈ s.table.flatten := by
  rw [(hs.rehash N n hpos).mem_flatten_iff, rehash_getD N hasher s n _ hs.length_eq hpos]
  simp [ADS_set.h, rehash_table_size N hasher s n hs.length_eq]

theorem WF.count_rehash {hasher : Key → Nat} {s : ADS_set Key} (hs : WF hasher s)
    (N n : Nat) (hpos : 0 < max N (max n (s.current_size * 10 / 7))) (key : Key) :
    (s.rehash N hasher n).count hasher key = s.count hasher key := by
  by_cases hk : key ∈ s.table.flatten
  · rw [(hs.count_one_iff_mem key).2 hk,
      ((hs.rehash N n hpos).count_one_iff_mem key).2 ((hs.rehash_mem_flatten N n hpos key).2 hk)]
  · rw [(hs.count_zero_iff_not_mem key).2 hk,
      ((hs.rehash N n hpos).count_zero_iff_not_mem key).2
        (fun h => hk ((hs.rehash_mem_flatten N n hpos key).1 h))]

end WellFormed

/-! ## Growth: `reserve` -/

section Reserve

variable {Key : Type} [DecidableEq Key]

/-- Whenever the bound on the number of rounds is at least `(10 * n - 7 * start) / 7`
(in particular for the `2 * n` rounds used by `reserve`) the loop of `reserve` stops
because its condition `new_table_size * max_lf < n` has become false. -/
theorem growLoop_exit (n fuel start : Nat) (hf : 10 * n ≤ 7 * start + 7 * fuel) :
    10 * n ≤ 7 * growLoop n fuel start := by
  induction fuel generalizing start with
  | zero => simpa [growLoop] using hf
  | succ fuel ih =>
    unfold growLoop
    split
    · exact ih _ (by omega)
    · omega

theorem growLoop_ge (n fuel start : Nat) : start ≤ growLoop n fuel start := by
  induction fuel generalizing start with
  | zero => simp [growLoop]
  | succ fuel ih =>
    unfold growLoop
    split
    · exact le_trans (by omega) (ih _)
    · exact le_refl _

/-- More rounds than needed do not change the result of the loop of `reserve`. -/
theorem growLoop_fuel (n a b start : Nat) (ha : 10 * n ≤ 7 * start + 7 * a)
    (hb : 10 * n ≤ 7 * start + 7 * b) : growLoop n a start = growLoop n b start := by
  induction a generalizing b start with
  | zero =>
    cases b with
    | zero => rfl
    | succ b => simp only [growLoop]; rw [if_neg (by omega)]
  | succ a ih =>
    cases b with
    | zero => simp only [growLoop]; rw [if_neg (by omega)]
    | succ b =>
      simp only [growLoop]
      split
      · exact ih b _ (by omega) (by omega)
      · rfl

theorem reserve_of_fits (N : Nat) (hasher : Key → Nat) (s : ADS_set Key) (n : Nat)
    (hfit : 10 * n ≤ 7 * s.table_size) : s.reserve N hasher n = s := by
  unfold ADS_set.reserve
  rw [if_pos hfit]

theorem reserve_of_not_fits (N : Nat) (hasher : Key → Nat) (s : ADS_set Key) (n : Nat)
    (hfit : ¬ 10 * n ≤ 7 * s.table_size) :
    ∃ m, s.table_size ≤ m ∧ 10 * n ≤ 7 * m ∧ m % 2 = 1 ∧
      s.reserve N hasher n = s.rehash N hasher m := by
  unfold ADS_set.reserve
  rw [if_neg hfit]
  have h1 := growLoop_exit n (2 * n) s.table_size (by omega)
  have h2 := growLoop_ge n (2 * n) s.table_size
  split
  · exact ⟨_, by omega, by omega, by omega, rfl⟩
  · exact ⟨_, h2, h1, by omega, rfl⟩

theorem WF.reserve {hasher : Key → Nat} {s : ADS_set Key} (hs : WF hasher s) (N n : Nat) :
    WF hasher (s.reserve N hasher n) := by
  by_cases hfit : 10 * n ≤ 7 * s.table_size
  · rw [reserve_of_fits N hasher s n hfit]; exact hs
  · obtain ⟨m, _, hm, _, he⟩ := reserve_of_not_fits N hasher s n hfit
    rw [he]
    exact hs.rehash N m (by omega)

theorem WF.reserve_current_size {hasher : Key → Nat} {s : ADS_set Key} (hs : WF hasher s)
    (N n : Nat) : (s.reserve N hasher n).current_size = s.current_size := by
  by_cases hfit : 10 * n ≤ 7 * s.table_size
  · rw [reserve_of_fits N hasher s n hfit]
  · obtain ⟨m, _, _, _, he⟩ := reserve_of_not_fits N hasher s n hfit
    rw [he, hs.rehash_current_size]

theorem WF.count_reserve {hasher : Key → Nat} {s : ADS_set Key} (hs : WF hasher s)
    (N n : Nat) (key : Key) :
    (s.reserve N hasher n).count hasher key = s.count hasher key := by
  by_cases hfit : 10 * n ≤ 7 * s.table_size
  · rw [reserve_of_fits N hasher s n hfit]
  · obtain ⟨m, _, hm, _, he⟩ := reserve_of_not_fits N hasher s n hfit
    rw [he, hs.count_rehash N m (by omega)]

theorem WF.reserve_table_size {hasher : Key → Nat} {s : ADS_set Key} (hs : WF hasher s)
    (N n : Nat) :
    10 * n ≤ 7 * (s.reserve N hasher n).table_size ∧
      s.table_size ≤ (s.reserve N hasher n).table_size := by
  by_cases hfit : 10 * n ≤ 7 * s.table_size
  · rw [reserve_of_fits N hasher s n hfit]; exact ⟨hfit, le_refl _⟩
  · obtain ⟨m, h1, hm, _, he⟩ := reserve_of_not_fits N hasher s n hfit
    rw [he, rehash_table_size N hasher s m hs.length_eq]
    have : m ≤ max N (max m (s.current_size * 10 / 7)) :=
      le_trans (le_max_left _ _) (le_max_right _ _)
    omega

end Reserve

/-! ## Unlinking: `erase` -/

section Erase

variable {Key : Type} [DecidableEq Key]

theorem locateFrom_length_le (key : Key) (c : List Key) :
    (locateFrom key c).length ≤ c.length := by
  induction c with
  | nil => simp [locateFrom]
  | cons k rest ih =>
    unfold locateFrom
    split
    · exact le_refl _
    · exact le_trans ih (by simp)

/-- The two branches of `erase` (head of the chain, or somewhere behind a cursor) both
remove exactly the located element, the first one holding `key`. -/
theorem unlink_eq_erase (key : Key) (c : List Key) (hk : key ∈ c) :
    (if c = locateFrom key c then (locateFrom key c).tail
      else unlinkAfter (locateFrom key c) c) = c.erase key := by
  induction c with
  | nil => simp at hk
  | cons k rest ih =>
    by_cases hkk : k = key
    · subst hkk
      simp [locateFrom]
    · have hmem : key ∈ rest := by
        rcases List.mem_cons.1 hk with h | h
        · exact absurd h.symm hkk
        · exact h
      have hloc : locateFrom key (k :: rest) = locateFrom key rest := by
        simp [locateFrom, hkk]
      have hne : k :: rest ≠ locateFrom key rest := by
        intro h
        have := locateFrom_length_le key rest
        rw [← h] at this
        simp at this
      rw [hloc, if_neg hne, List.erase_cons_tail (by simpa using hkk)]
      have := ih hmem
      unfold unlinkAfter
      split
      · next he => rw [← this, if_pos he]
      · next he => rw [← this, if_neg he]

/-- The state after `erase(key)`: the first element holding `key` is removed from the chain
of bucket `h(key)`, if there is one. -/
theorem erase_eq (hasher : Key → Nat) (s : ADS_set Key) (key : Key) :
    s.erase hasher key =
      if key ∈ s.table.getD (s.h hasher key) [] then
        ({ table := s.table.set (s.h hasher key) ((s.table.getD (s.h hasher key) []).erase key)
           table_size := s.table_size
           current_size := s.current_size - 1 }, 1)
      else (s, 0) := by
  by_cases hk : key ∈ s.table.getD (s.h hasher key) []
  · have hl := (locate_ne_nil_iff hasher s key).2 hk
    have hu := unlink_eq_erase key _ hk
    rw [if_pos hk]
    unfold ADS_set.erase
    rw [if_pos hl]
    unfold ADS_set.locate at hl ⊢
    split
    · next he => rw [if_pos he] at hu; rw [hu]
    · next he => rw [if_neg he] at hu; rw [hu]
  · have hl : ¬ s.locate hasher key ≠ [] := fun h => hk ((locate_ne_nil_iff hasher s key).1 h)
    rw [if_neg hk]
    unfold ADS_set.erase
    rw [if_neg hl]

theorem erase_snd (hasher : Key → Nat) (s : ADS_set Key) (key : Key) :
    (s.erase hasher key).2 = s.count hasher key := by
  rw [erase_eq, count_eq_ite]
  split <;> rfl

theorem erase_table_size (hasher : Key → Nat) (s : ADS_set Key) (key : Key) :
    (s.erase hasher key).1.table_size = s.table_size := by
  rw [erase_eq]
  split <;> rfl

theorem erase_getD (hasher : Key → Nat) (s : ADS_set Key) (key : Key) (j : Nat)
    (hlen : s.table.length = s.table_size) (hpos : 0 < s.table_size) :
    (s.erase hasher key).1.table.getD j []
      = if j = s.h hasher key then (s.table.getD j []).erase key else s.table.getD j [] := by
  have hi : s.h hasher key < s.table.length := by
    rw [hlen]; exact Nat.mod_lt _ hpos
  rw [erase_eq]
  by_cases hk : key ∈ s.table.getD (s.h hasher key) []
  · rw [if_pos hk]
    simp only
    split
    · next hj => subst hj; exact getD_set_self _ _ _ hi
    · next hj => exact getD_set_other _ _ _ _ (fun h => hj h.symm)
  · rw [if_neg hk]
    simp only
    split
    · next hj => subst hj; rw [List.erase_of_not_mem hk]
    · rfl

theorem WF.erase {hasher : Key → Nat} {s : ADS_set Key} (hs : WF hasher s) (key : Key) :
    WF hasher (s.erase hasher key).1 where
  length_eq := by
    rw [erase_table_size, ← hs.length_eq, erase_eq]
    split <;> simp
  pos := by rw [erase_table_size]; exact hs.pos
  placed := by
    intro i k hk
    rw [erase_getD hasher s key i hs.length_eq hs.pos] at hk
    rw [erase_table_size]
    split at hk
    · exact hs.placed i k (List.mem_of_mem_erase hk)
    · exact hs.placed i k hk
  nodup := by
    intro i
    rw [erase_getD hasher s key i hs.length_eq hs.pos]
    split
    · exact (hs.nodup i).erase key
    · exact hs.nodup i
  size_eq := by
    have hi : s.h hasher key < s.table.length := by
      rw [hs.length_eq]; exact Nat.mod_lt _ hs.pos
    rw [erase_eq]
    split
    · next hk =>
      have := sum_length_set s.table (s.h hasher key)
        ((s.table.getD (s.h hasher key) []).erase key) hi
      rw [List.length_erase_of_mem hk] at this
      have hpos : 0 < (s.table.getD (s.h hasher key) []).length := List.length_pos_of_mem hk
      have := hs.size_eq
      simp only
      omega
    · exact hs.size_eq

theorem WF.erase_current_size {hasher : Key → Nat} {s : ADS_set Key} (hs : WF hasher s)
    (key : Key) :
    (s.erase hasher key).1.current_size + (s.erase hasher key).2 = s.current_size := by
  have hi : s.h hasher key < s.table.length := by
    rw [hs.length_eq]; exact Nat.mod_lt _ hs.pos
  rw [erase_eq]
  split
  · next hk =>
    have := sum_length_set s.table (s.h hasher key)
      ((s.table.getD (s.h hasher key) []).erase key) hi
    rw [List.length_erase_of_mem hk] at this
    have hpos : 0 < (s.table.getD (s.h hasher key) []).length := List.length_pos_of_mem hk
    have := hs.size_eq
    simp only
    omega
  · rfl

theorem WF.count_erase {hasher : Key → Nat} {s : ADS_set Key} (hs : WF hasher s)
    (key j : Key) :
    (s.erase hasher key).1.count hasher j = if j = key then 0 else s.count hasher j := by
  have hh : (s.erase hasher key).1.h hasher j = s.h hasher j := by
    unfold ADS_set.h; rw [erase_table_size]
  split
  · next hj =>
    subst hj
    rw [count_eq_zero_iff, hh, erase_getD hasher s j _ hs.length_eq hs.pos, if_pos rfl]
    exact fun h => ((hs.nodup _).mem_erase_iff.1 h).1 rfl
  · next hj =>
    rw [count_eq_ite, count_eq_ite, hh, erase_getD hasher s key _ hs.length_eq hs.pos]
    split
    · next he =>
      have : j ∈ (s.table.getD (s.h hasher j) []).erase key ↔ j ∈ s.table.getD (s.h hasher j) [] :=
        List.mem_erase_of_ne hj
      simp only [this]
    · rfl

end Erase

/-! ## Checking the class invariant on a concrete state -/

section Check

variable {Key : Type} [DecidableEq Key]

theorem WF.of_check {hasher : Key → Nat} {s : ADS_set Key}
    (hc : WF.check hasher s = true) : WF hasher s := by
  simp only [WF.check, Bool.and_eq_true, decide_eq_true_eq, List.all_eq_true,
    List.mem_range] at hc
  obtain ⟨⟨⟨h1, h2⟩, h3⟩, h4⟩ := hc
  refine ⟨h1, h2, ?_, ?_, h4⟩
  · intro i k hk
    by_cases hi : i < s.table.length
    · exact (h3 i hi).1 k hk
    · rw [getD_of_length_le _ _ (by omega)] at hk
      simp at hk
  · intro i
    by_cases hi : i < s.table.length
    · exact (h3 i hi).2
    · rw [getD_of_length_le _ _ (by omega)]
      exact List.nodup_nil

end Check

/-! ## Insertion -/

section Insert

variable {Key : Type} [DecidableEq Key]

theorem Iterator.advance_of_ne_nil (table : List (List Key)) (fuel : Nat) (it : Iterator Key)
    (he : it.current_element ≠ []) : Iterator.advance table fuel it = it := by
  cases fuel with
  | zero => rfl
  | succ fuel =>
    unfold Iterator.advance
    rw [if_neg (fun h => he h.1)]

theorem Iterator.ctor_of_ne_nil (table : List (List Key)) (n : Nat) (e : List Key) (te : Nat)
    (he : e ≠ []) :
    Iterator.ctor table n e te = { current_node := n, current_element := e, table_end := te } :=
  Iterator.advance_of_ne_nil table _ _ he

theorem insert_of_present (N : Nat) (hasher : Key → Nat) (s : ADS_set Key) (key : Key)
    (hc : s.count hasher key = 1) :
    s.insert N hasher key
      = (s, { current_node := s.h hasher key
              current_element := s.locate hasher key
              table_end := s.table_size }, false) := by
  have hl : s.locate hasher key ≠ [] :=
    (locate_ne_nil_iff hasher s key).2 ((count_eq_one_iff hasher s key).1 hc)
  unfold ADS_set.insert
  rw [if_pos hl, Iterator.ctor_of_ne_nil _ _ _ _ hl]

theorem insert_of_absent (N : Nat) (hasher : Key → Nat) (s : ADS_set Key) (key : Key)
    (hs : WF hasher s) (hc : s.count hasher key = 0) :
    s.insert N hasher key
      = ((s.reserve N hasher (s.current_size + 1)).link hasher key,
         { current_node := (s.reserve N hasher (s.current_size + 1)).h hasher key
           current_element :=
             key :: (s.reserve N hasher (s.current_size + 1)).table.getD
               ((s.reserve N hasher (s.current_size + 1)).h hasher key) []
           table_end := (s.reserve N hasher (s.current_size + 1)).table_size }, true) := by
  have hl : ¬ s.locate hasher key ≠ [] := fun h =>
    (count_eq_zero_iff hasher s key).1 hc ((locate_ne_nil_iff hasher s key).1 h)
  have hc' : (s.reserve N hasher (s.current_size + 1)).count hasher key = 0 := by
    rw [hs.count_reserve]; exact hc
  unfold ADS_set.insert
  rw [if_neg hl, add_of_count_zero hasher _ key hc', Iterator.ctor_of_ne_nil _ _ _ _ (by simp)]
  rfl

theorem count_link (hasher : Key → Nat) (s : ADS_set Key) (key j : Key)
    (hlen : s.table.length = s.table_size) (hpos : 0 < s.table_size) :
    (s.link hasher key).count hasher j = if j = key then 1 else s.count hasher j := by
  have hh : (s.link hasher key).h hasher j = s.h hasher j := rfl
  split
  · next hj =>
    subst hj
    rw [count_eq_one_iff, hh, link_getD hasher s j _ hlen hpos]
    simp [ADS_set.h]
  · next hj =>
    by_cases hm : j ∈ s.table.getD (s.h hasher j) []
    · rw [(count_eq_one_iff hasher s j).2 hm, count_eq_one_iff, hh,
        link_getD hasher s key _ hlen hpos]
      split
      · exact List.mem_cons_of_mem _ hm
      · exact hm
    · rw [(count_eq_zero_iff hasher s j).2 hm, count_eq_zero_iff, hh,
        link_getD hasher s key _ hlen hpos]
      split
      · intro h
        rcases List.mem_cons.1 h with h | h
        · exact hj h
        · exact hm h
      · exact hm

theorem locate_link_self (hasher : Key → Nat) (s : ADS_set Key) (key : Key)
    (hlen : s.table.length = s.table_size) (hpos : 0 < s.table_size) :
    (s.link hasher key).locate hasher key = key :: s.table.getD (s.h hasher key) [] := by
  have hh : (s.link hasher key).h hasher key = s.h hasher key := rfl
  unfold ADS_set.locate
  rw [hh, link_getD hasher s key _ hlen hpos]
  simp [ADS_set.h, locateFrom]

theorem WF.insert {hasher : Key → Nat} {s : ADS_set Key} (hs : WF hasher s) (N : Nat)
    (key : Key) : WF hasher (s.insert N hasher key).1 := by
  by_cases hk : key ∈ s.table.getD (s.h hasher key) []
  · rw [insert_of_present N hasher s key ((count_eq_one_iff hasher s key).2 hk)]
    exact hs
  · have hc := (count_eq_zero_iff hasher s key).2 hk
    rw [insert_of_absent N hasher s key hs hc]
    exact (hs.reserve N _).link key (by rw [hs.count_reserve]; exact hc)

theorem WF.count_insert {hasher : Key → Nat} {s : ADS_set Key} (hs : WF hasher s) (N : Nat)
    (key j : Key) :
    (s.insert N hasher key).1.count hasher j = if j = key then 1 else s.count hasher j := by
  by_cases hk : key ∈ s.table.getD (s.h hasher key) []
  · have hc := (count_eq_one_iff hasher s key).2 hk
    rw [insert_of_present N hasher s key hc]
    split
    · next hj => rw [hj]; exact hc
    · rfl
  · have hc := (count_eq_zero_iff hasher s key).2 hk
    rw [insert_of_absent N hasher s key hs hc]
    simp only
    rw [count_link hasher _ key j (hs.reserve N _).length_eq (hs.reserve N _).pos,
      hs.count_reserve]

theorem WF.size_insert {hasher : Key → Nat} {s : ADS_set Key} (hs : WF hasher s) (N : Nat)
    (key : Key) :
    (s.insert N hasher key).1.size = s.size + (1 - s.count hasher key) := by
  by_cases hk : key ∈ s.table.getD (s.h hasher key) []
  · have hc := (count_eq_one_iff hasher s key).2 hk
    rw [insert_of_present N hasher s key hc, hc]
    rfl
  · have hc := (count_eq_zero_iff hasher s key).2 hk
    rw [insert_of_absent N hasher s key hs hc, hc]
    simp only [ADS_set.size, ADS_set.link]
    rw [hs.reserve_current_size]

end Insert

/-! ## Iteration -/

section Iteration

variable {Key : Type} [DecidableEq Key]

theorem flatten_drop_eq (table : List (List Key)) (i : Nat) :
    (table.drop i).flatten = table.getD i [] ++ (table.drop (i + 1)).flatten := by
  by_cases hi : i < table.length
  · rw [List.drop_eq_getElem_cons hi, List.flatten_cons, List.getD_eq_getElem _ _ hi]
  · rw [getD_of_length_le _ _ (by omega), List.drop_of_length_le (by omega),
      List.drop_of_length_le (by omega)]
    rfl

/-- The skipping loop, started at a bucket of the table with at least
`table_end - current_node` rounds, stops because its condition is false: it ends on an
element or on the end position, without skipping any stored key. -/
theorem Iterator.advance_exit (table : List (List Key)) (fuel i : Nat) (e : List Key)
    (hi : i ≤ table.length) (hfuel : table.length - i ≤ fuel)
    (he : e ≠ [] → i < table.length) :
    Iterator.Valid table (Iterator.advance table fuel
        { current_node := i, current_element := e, table_end := table.length }) ∧
      Iterator.remaining table (Iterator.advance table fuel
        { current_node := i, current_element := e, table_end := table.length })
        = e ++ (table.drop (i + 1)).flatten := by
  induction fuel generalizing i e with
  | zero =>
    have hil : i = table.length := by omega
    have he' : e = [] := by
      by_contra h
      have := he h
      omega
    subst he'
    exact ⟨⟨rfl, Or.inr ⟨rfl, hil⟩⟩, rfl⟩
  | succ fuel ih =>
    unfold Iterator.advance
    by_cases hc : e = [] ∧ i ≠ table.length
    · rw [if_pos hc]
      obtain ⟨he0, hne⟩ := hc
      subst he0
      simp only
      have h := ih (i + 1)
        (if i + 1 ≠ table.length then table.getD (i + 1) [] else [])
        (by omega) (by omega)
        (by
          intro h
          by_cases h1 : i + 1 = table.length
          · simp [h1] at h
          · omega)
      refine ⟨h.1, ?_⟩
      rw [h.2, List.nil_append, flatten_drop_eq table (i + 1)]
      by_cases h1 : i + 1 = table.length
      · simp [h1, getD_of_length_le]
      · simp [h1]
    · rw [if_neg hc]
      refine ⟨⟨rfl, ?_⟩, rfl⟩
      by_cases he0 : e = []
      · right
        refine ⟨he0, ?_⟩
        by_contra h
        exact hc ⟨he0, h⟩
      · left
        exact ⟨he0, he he0⟩

theorem end_eq (s : ADS_set Key) :
    s.end_ = { current_node := s.table_size, current_element := [], table_end := s.table_size } := by
  unfold ADS_set.end_ Iterator.ctor
  rw [Nat.sub_self]
  rfl

theorem begin_valid (s : ADS_set Key) (hlen : s.table.length = s.table_size) :
    Iterator.Valid s.table s.begin ∧ Iterator.remaining s.table s.begin = s.table.flatten := by
  unfold ADS_set.begin Iterator.ctor
  rw [← hlen]
  have h := Iterator.advance_exit s.table (s.table.length - 0) 0 (s.table.getD 0 [])
    (Nat.zero_le _) (le_refl _)
    (by
      intro h
      by_contra h0
      exact h (getD_of_length_le _ _ (by omega)))
  refine ⟨h.1, ?_⟩
  rw [h.2, ← flatten_drop_eq]
  rfl

theorem Iterator.valid_of_remaining_nil (s : ADS_set Key) (it : Iterator Key)
    (hlen : s.table.length = s.table_size) (hv : Iterator.Valid s.table it)
    (hr : Iterator.remaining s.table it = []) : it = s.end_ := by
  rw [end_eq]
  obtain ⟨h1, h2⟩ := hv
  have he : it.current_element = [] := (List.append_eq_nil.1 hr).1
  rcases h2 with ⟨h, _⟩ | ⟨_, h⟩
  · exact absurd he h
  · cases it
    simp only at h1 he h
    simp [h1, he, h, hlen]

theorem Iterator.valid_of_remaining_cons (s : ADS_set Key) (it : Iterator Key) (k : Key)
    (ks : List Key) (hlen : s.table.length = s.table_size) (hv : Iterator.Valid s.table it)
    (hr : Iterator.remaining s.table it = k :: ks) :
    Iterator.eq it s.end_ = false ∧ it.deref = some k ∧
      (∃ rest, it.current_element = k :: rest) ∧
      Iterator.Valid s.table (it.inc s.table) ∧
      Iterator.remaining s.table (it.inc s.table) = ks := by
  obtain ⟨h1, h2⟩ := hv
  rcases h2 with ⟨hne, hlt⟩ | ⟨he, hn⟩
  · obtain ⟨x, rest, hx⟩ := List.exists_cons_of_ne_nil hne
    unfold Iterator.remaining at hr
    rw [hx, List.cons_append] at hr
    obtain ⟨hxk, hks⟩ := List.cons.inj hr
    subst hxk
    have hinc : it.inc s.table = Iterator.advance s.table (s.table.length - it.current_node)
        { current_node := it.current_node, current_element := rest,
          table_end := s.table.length } := by
      unfold Iterator.inc
      rw [hx, h1]
      cases rest <;> rfl
    have h := Iterator.advance_exit s.table (s.table.length - it.current_node)
      it.current_node rest (by omega) (le_refl _) (fun _ => hlt)
    refine ⟨?_, ?_, ⟨rest, hx⟩, ?_, ?_⟩
    · rw [end_eq]
      simp [Iterator.eq, hx]
    · simp [Iterator.deref, hx]
    · rw [hinc]; exact h.1
    · rw [hinc, h.2]; exact hks
  · unfold Iterator.remaining at hr
    rw [he, hn, List.drop_of_length_le (by omega)] at hr
    simp at hr

/-- Iterating `++` from `begin()`: after `j` steps the iterator is a valid position and the
keys still ahead are the stored keys, in bucket order and chain order, without the
first `j`. -/
theorem iterate_inc (s : ADS_set Key) (hlen : s.table.length = s.table_size) (j : Nat)
    (hj : j ≤ s.table.flatten.length) :
    Iterator.Valid s.table ((Iterator.inc s.table)^[j] s.begin) ∧
      Iterator.remaining s.table ((Iterator.inc s.table)^[j] s.begin)
        = s.table.flatten.drop j := by
  induction j with
  | zero => simpa using begin_valid s hlen
  | succ j ih =>
    obtain ⟨hv, hr⟩ := ih (by omega)
    rw [List.drop_eq_getElem_cons (by omega)] at hr
    rw [Function.iterate_succ_apply']
    obtain ⟨_, _, _, h4, h5⟩ := Iterator.valid_of_remaining_cons s _ _ _ hlen hv hr
    exact ⟨h4, h5⟩

theorem visitFrom_eq_remaining (s : ADS_set Key) (hlen : s.table.length = s.table_size)
    (fuel : Nat) (it : Iterator Key) (hv : Iterator.Valid s.table it)
    (hfuel : (Iterator.remaining s.table it).length ≤ fuel) :
    s.visitFrom fuel it = Iterator.remaining s.table it := by
  induction fuel generalizing it with
  | zero =>
    rw [List.length_eq_zero.1 (Nat.le_zero.1 hfuel)]
    rfl
  | succ fuel ih =>
    rcases hr : Iterator.remaining s.table it with _ | ⟨k, ks⟩
    · have := Iterator.valid_of_remaining_nil s it hlen hv hr
      unfold ADS_set.visitFrom
      rw [this]
      simp [Iterator.eq]
    · obtain ⟨h1, _, ⟨rest, h3⟩, h4, h5⟩ :=
        Iterator.valid_of_remaining_cons s it k ks hlen hv hr
      unfold ADS_set.visitFrom
      rw [h1, h3]
      simp only [Bool.false_eq_true, if_false]
      rw [ih _ h4 (by rw [h5]; rw [hr] at hfuel; simpa using hfuel), h5]

/-- The range-based loop over a set visits the stored keys bucket by bucket, each chain
from its head; one round per stored element is enough. -/
theorem visit_eq_flatten (s : ADS_set Key) (hlen : s.table.length = s.table_size) :
    s.visit = s.table.flatten := by
  obtain ⟨hv, hr⟩ := begin_valid s hlen
  unfold ADS_set.visit
  rw [visitFrom_eq_remaining s hlen _ _ hv (by rw [hr, List.length_flatten]), hr]

end Iteration

/-! ## Bulk insertion and copying -/

section Bulk

variable {Key : Type} [DecidableEq Key]

theorem insert_fst (N : Nat) (hasher : Key → Nat) (s : ADS_set Key) (key : Key) :
    (s.insert N hasher key).1
      = if s.count hasher key = 0 then
          ((s.reserve N hasher (s.current_size + 1)).add hasher key).1
        else s := by
  unfold ADS_set.insert ADS_set.count
  by_cases hl : s.locate hasher key = []
  · simp [hl]
  · simp [hl]

theorem WF.foldl_insert {hasher : Key → Nat} {s : ADS_set Key} (hs : WF hasher s) (N : Nat)
    (xs : List Key) : WF hasher (xs.foldl (fun acc key => (acc.insert N hasher key).1) s) := by
  induction xs generalizing s with
  | nil => exact hs
  | cons key rest ih => exact ih (hs.insert N key)

theorem WF.count_foldl_insert {hasher : Key → Nat} {s : ADS_set Key} (hs : WF hasher s)
    (N : Nat) (xs : List Key) (j : Key) :
    (xs.foldl (fun acc key => (acc.insert N hasher key).1) s).count hasher j
      = if j ∈ xs then 1 else s.count hasher j := by
  induction xs generalizing s with
  | nil => simp
  | cons key rest ih =>
    rw [List.foldl_cons, ih (hs.insert N key), hs.count_insert]
    by_cases h1 : j ∈ rest
    · simp [h1]
    · by_cases h2 : j = key
      · simp [h2]
      · simp [h1, h2]

/-- Adding keys that are pairwise different and not yet stored links each of them. -/
theorem WF.foldl_add {hasher : Key → Nat} {s : ADS_set Key} (hs : WF hasher s)
    (ks : List Key) (hnd : ks.Nodup) (habs : ∀ k ∈ ks, s.count hasher k = 0) :
    ks.foldl (fun acc k => (acc.add hasher k).1) s = ks.foldl (ADS_set.link hasher) s ∧
      WF hasher (ks.foldl (ADS_set.link hasher) s) := by
  induction ks generalizing s with
  | nil => exact ⟨rfl, hs⟩
  | cons k ks ih =>
    have hk := habs k (List.mem_cons_self _ _)
    obtain ⟨hk1, hk2⟩ := List.nodup_cons.1 hnd
    rw [List.foldl_cons, List.foldl_cons, add_of_count_zero hasher s k hk]
    refine ih (hs.link k hk) hk2 ?_
    intro j hj
    have hjk : ¬ j = k := fun h => hk1 (by rw [← h]; exact hj)
    rw [count_link hasher s k j hs.length_eq hs.pos, if_neg hjk]
    exact habs j (List.mem_cons_of_mem _ hj)

theorem ctor_rehash_table_size (N : Nat) (hasher : Key → Nat) (n : Nat) :
    ((ADS_set.ctor N : ADS_set Key).rehash N hasher n).table_size = max N n := by
  rw [rehash_table_size N hasher _ n (by simp [ADS_set.ctor])]
  simp [ADS_set.ctor]

/-- The copy constructor links the keys of `other`, in iteration order, into an empty
table of `max N other.table_size` buckets. -/
theorem copy_eq_foldl_link (N : Nat) (hasher : Key → Nat) (other : ADS_set Key)
    (hN : 0 < N) (ho : WF hasher other) :
    ADS_set.copy N hasher other
      = other.table.flatten.foldl (ADS_set.link hasher)
          ((ADS_set.ctor N).rehash N hasher other.table_size) ∧
      WF hasher (ADS_set.copy N hasher other) := by
  have hpos : 0 < max N
      (max other.table_size ((ADS_set.ctor N : ADS_set Key).current_size * 10 / 7)) :=
    lt_of_lt_of_le hN (le_max_left _ _)
  have hw : WF hasher ((ADS_set.ctor N : ADS_set Key).rehash N hasher other.table_size) :=
    (WF.ctor hasher N hN).rehash N _ hpos
  have habs : ∀ k ∈ other.table.flatten,
      ((ADS_set.ctor N : ADS_set Key).rehash N hasher other.table_size).count hasher k = 0 := by
    intro k _
    rw [hw.count_zero_iff_not_mem, (WF.ctor hasher N hN).rehash_mem_flatten N _ hpos]
    simp [ADS_set.ctor]
  have h := hw.foldl_add other.table.flatten ho.nodup_flatten habs
  unfold ADS_set.copy
  rw [visit_eq_flatten other ho.length_eq, h.1]
  exact ⟨rfl, h.2⟩

theorem copy_table_size (N : Nat) (hasher : Key → Nat) (other : ADS_set Key)
    (hN : 0 < N) (ho : WF hasher other) :
    (ADS_set.copy N hasher other).table_size = max N other.table_size := by
  rw [(copy_eq_foldl_link N hasher other hN ho).1, foldl_link_table_size,
    ctor_rehash_table_size]

theorem copy_current_size (N : Nat) (hasher : Key → Nat) (other : ADS_set Key)
    (hN : 0 < N) (ho : WF hasher other) :
    (ADS_set.copy N hasher other).current_size = other.current_size := by
  rw [(copy_eq_foldl_link N hasher other hN ho).1, foldl_link_current_size,
    (WF.ctor hasher N hN).rehash_current_size, ho.size_eq, List.length_flatten]
  simp [ADS_set.ctor]

end Bulk

/-! ## Reachable states and the invariants they satisfy -/

section Reachability

variable {Key : Type} [DecidableEq Key]

theorem Inv.ctor_inv (N : Nat) (hasher : Key → Nat) (hN : 0 < N) :
    Inv N hasher (ADS_set.ctor N : ADS_set Key) where
  wf := WF.ctor hasher N hN
  min_size := le_refl _
  load := by simp [ADS_set.ctor]

theorem Inv.insert_inv {N : Nat} {hasher : Key → Nat} {s : ADS_set Key} (hs : Inv N hasher s)
    (key : Key) : Inv N hasher (s.insert N hasher key).1 := by
  refine ⟨hs.wf.insert N key, ?_, ?_⟩
  · by_cases hk : s.count hasher key = 0
    · rw [insert_of_absent N hasher s key hs.wf hk]
      exact le_trans hs.min_size (hs.wf.reserve_table_size N _).2
    · rw [insert_fst, if_neg hk]
      exact hs.min_size
  · by_cases hk : s.count hasher key = 0
    · rw [insert_of_absent N hasher s key hs.wf hk]
      have h1 := (hs.wf.reserve_table_size N (s.current_size + 1)).1
      have h2 := hs.wf.reserve_current_size N (s.current_size + 1)
      simp only [ADS_set.link]
      omega
    · rw [insert_fst, if_neg hk]
      exact hs.load

theorem Inv.insertRange_inv {N : Nat} {hasher : Key → Nat} {s : ADS_set Key}
    (hs : Inv N hasher s) (xs : List Key) : Inv N hasher (s.insertRange N hasher xs) := by
  induction xs generalizing s with
  | nil => exact hs
  | cons key rest ih =>
    have h := hs.insert_inv key
    rw [insert_fst] at h
    unfold ADS_set.insertRange
    split
    · next hc => rw [if_pos hc] at h; exact ih h
    · exact ih hs

theorem Inv.erase_inv {N : Nat} {hasher : Key → Nat} {s : ADS_set Key} (hs : Inv N hasher s)
    (key : Key) : Inv N hasher (s.erase hasher key).1 := by
  refine ⟨hs.wf.erase key, ?_, ?_⟩
  · rw [erase_table_size]; exact hs.min_size
  · have h1 := hs.wf.erase_current_size key
    have h2 := hs.load
    rw [erase_table_size]
    omega

theorem Inv.copy_inv {N : Nat} {hasher : Key → Nat} {other : ADS_set Key}
    (ho : Inv N hasher other) (hN : 0 < N) : Inv N hasher (ADS_set.copy N hasher other) := by
  refine ⟨(copy_eq_foldl_link N hasher other hN ho.wf).2, ?_, ?_⟩
  · rw [copy_table_size N hasher other hN ho.wf]
    exact le_max_left _ _
  · rw [copy_table_size N hasher other hN ho.wf, copy_current_size N hasher other hN ho.wf]
    have h1 := ho.load
    have h2 : other.table_size ≤ max N other.table_size := le_max_right _ _
    omega

/-- Every reachable state satisfies the invariants. -/
theorem Reachable.inv {N : Nat} {hasher : Key → Nat} (hN : 0 < N) {s : ADS_set Key}
    (hr : Reachable N hasher s) : Inv N hasher s := by
  induction hr with
  | ctor => exact Inv.ctor_inv N hasher hN
  | insert key _ ih => exact ih.insert_inv key
  | insertRange xs _ ih => exact ih.insertRange_inv xs
  | erase key _ ih => exact ih.erase_inv key
  | clear _ _ => exact Inv.ctor_inv N hasher hN
  | copy _ ih => exact ih.copy_inv hN
  | assign _ _ _ ih => exact ih.copy_inv hN
  | assignList ilist _ _ =>
    exact (Inv.ctor_inv N hasher hN).insertRange_inv ilist
  | swap_this _ _ _ ih => exact ih
  | swap_other _ _ ih _ => exact ih

end Reachability

/-! ## The contract of `insert` and `erase` -/

section Contract

variable {Key : Type} [DecidableEq Key]

/-- C1: inserting a key with `count(key) = 0` into a well-formed set returns the flag `true`
and a position that dereferences to `key` (it is the position `find(key)` yields
afterwards); afterwards `count(key) = 1`, `size()` is exactly one larger and `count(j)` is
unchanged for every key `j ≠ key`, whether or not the insert rehashes. -/
theorem insert_absent_spec (N : Nat) (hasher : Key → Nat) (s : ADS_set Key) (key : Key)
    (hs : WF hasher s) (hc : s.count hasher key = 0) :
    (s.insert N hasher key).2.2 = true ∧
      (s.insert N hasher key).2.1.deref = some key ∧
      (s.insert N hasher key).2.1 = (s.insert N hasher key).1.find hasher key ∧
      (s.insert N hasher key).1.count hasher key = 1 ∧
      (s.insert N hasher key).1.size = s.size + 1 ∧
      ∀ j, j ≠ key → (s.insert N hasher key).1.count hasher j = s.count hasher j := by
  have hw := hs.reserve N (s.current_size + 1)
  refine ⟨?_, ?_, ?_, ?_, ?_, ?_⟩
  · rw [insert_of_absent N hasher s key hs hc]
  · rw [insert_of_absent N hasher s key hs hc]
    rfl
  · rw [insert_of_absent N hasher s key hs hc]
    simp only
    unfold ADS_set.find
    rw [locate_link_self hasher _ key hw.length_eq hw.pos, if_pos (by simp),
      Iterator.ctor_of_ne_nil _ _ _ _ (by simp)]
    rfl
  · rw [hs.count_insert, if_pos rfl]
  · rw [hs.size_insert, hc]
  · intro j hj
    rw [hs.count_insert, if_neg hj]

/-- Instance of C1 in which the insert rehashes from 3 to 7 buckets. -/
theorem insert_absent_spec_witness :
    WF id fullSmall ∧ fullSmall.count id 4 = 0 ∧
      (fullSmall.insert 3 id 4).1
        = { table := [[], [], [], [3], [4], [5], []], table_size := 7, current_size := 3 } ∧
      (fullSmall.insert 3 id 4).2.2 = true ∧
      (fullSmall.insert 3 id 4).2.1.deref = some 4 ∧
      (fullSmall.insert 3 id 4).2.1 = (fullSmall.insert 3 id 4).1.find id 4 ∧
      (fullSmall.insert 3 id 4).1.count id 4 = 1 ∧
      (fullSmall.insert 3 id 4).1.size = fullSmall.size + 1 ∧
      (fullSmall.insert 3 id 4).1.count id 5 = fullSmall.count id 5 :=
  have h := insert_absent_spec 3 id fullSmall 4 (WF.of_check (by decide)) (by decide)
  ⟨WF.of_check (by decide), by decide, by decide, h.1, h.2.1, h.2.2.1, h.2.2.2.1,
    h.2.2.2.2.1, h.2.2.2.2.2 5 (by decide)⟩

/-- C2: inserting a key with `count(key) = 1` returns the flag `false` and a position that
dereferences to `key` (the position `find(key)` yields) and leaves the whole state
unchanged: the same `table_size`, the same chains in the same order, the same `size()`. -/
theorem insert_present_spec (N : Nat) (hasher : Key → Nat) (s : ADS_set Key) (key : Key)
    (hc : s.count hasher key = 1) :
    (s.insert N hasher key).2.2 = false ∧
      (s.insert N hasher key).2.1.deref = some key ∧
      (s.insert N hasher key).2.1 = s.find hasher key ∧
      (s.insert N hasher key).1 = s := by
  have hl : s.locate hasher key ≠ [] :=
    (locate_ne_nil_iff hasher s key).2 ((count_eq_one_iff hasher s key).1 hc)
  rw [insert_of_present N hasher s key hc]
  refine ⟨rfl, ?_, ?_, rfl⟩
  · exact locateFrom_head key _ hl
  · unfold ADS_set.find
    rw [if_pos hl, Iterator.ctor_of_ne_nil _ _ _ _ hl]

/-- Instance of C2: inserting 10 again into the set holding 3, 10, 17. -/
theorem insert_present_spec_witness :
    scenario.count id 10 = 1 ∧
      (scenario.insert 7 id 10).2.2 = false ∧
      (scenario.insert 7 id 10).2.1.deref = some 10 ∧
      (scenario.insert 7 id 10).2.1 = scenario.find id 10 ∧
      (scenario.insert 7 id 10).1 = scenario :=
  ⟨by decide, insert_present_spec 7 id scenario 10 (by decide)⟩

/-- C3: on a well-formed set `erase(key)` returns the value `count(key)` had before the
call (1 if the key is stored, 0 if not); afterwards `count(key) = 0`, `size()` has
decreased by the returned value, `count(j)` is unchanged for every `j ≠ key`,
`table_size` is unchanged, the chain of bucket `h(key)` is the old chain without the
element holding `key` (the rest in unchanged order) and all other chains are unchanged. -/
theorem erase_spec (hasher : Key → Nat) (s : ADS_set Key) (key : Key) (hs : WF hasher s) :
    (s.erase hasher key).2 = s.count hasher key ∧
      (key ∈ s.table.flatten → (s.erase hasher key).2 = 1) ∧
      (key ∉ s.table.flatten → (s.erase hasher key).2 = 0) ∧
      (s.erase hasher key).1.count hasher key = 0 ∧
      (s.erase hasher key).1.size + (s.erase hasher key).2 = s.size ∧
      (∀ j, j ≠ key → (s.erase hasher key).1.count hasher j = s.count hasher j) ∧
      (s.erase hasher key).1.table_size = s.table_size ∧
      (∀ i, (s.erase hasher key).1.table.getD i []
          = if i = s.h hasher key then (s.table.getD i []).filter (fun k => decide (k ≠ key))
            else s.table.getD i []) ∧
      ∀ i, ((s.erase hasher key).1.table.getD i []).Sublist (s.table.getD i []) := by
  refine ⟨erase_snd hasher s key, ?_, ?_, ?_, hs.erase_current_size key, ?_,
    erase_table_size hasher s key, ?_, ?_⟩
  · intro hk
    rw [erase_snd, hs.count_one_iff_mem]
    exact hk
  · intro hk
    rw [erase_snd, hs.count_zero_iff_not_mem]
    exact hk
  · rw [hs.count_erase, if_pos rfl]
  · intro j hj
    rw [hs.count_erase, if_neg hj]
  · intro i
    rw [erase_getD hasher s key i hs.length_eq hs.pos]
    split
    · rw [(hs.nodup i).erase_eq_filter]
      congr 1
      funext k
      by_cases hk : k = key <;> simp [hk]
    · rfl
  · intro i
    rw [erase_getD hasher s key i hs.length_eq hs.pos]
    split
    · exact List.erase_sublist _ _
    · exact List.Sublist.refl _

/-- Instance of C3, the scenario `N = 7`, `hash(x) = x`, the set built by inserting 3, 10,
17 with bucket 3 = [17, 10, 3]: `erase(10)` returns 1, leaves size 2 and
bucket 3 = [17, 3]. -/
theorem erase_spec_witness :
    WF id scenario ∧
      build 7 id [3, 10, 17] = scenario ∧
      (scenario.erase id 10).2 = 1 ∧
      (scenario.erase id 10).1.size = 2 ∧
      (scenario.erase id 10).1.table.getD 3 [] = [17, 3] ∧
      (scenario.erase id 10).1
        = { table := [[], [], [], [17, 3], [], [], []], table_size := 7, current_size := 2 } ∧
      (scenario.erase id 10).2 = scenario.count id 10 ∧
      (scenario.erase id 10).1.count id 10 = 0 ∧
      (scenario.erase id 10).1.size + (scenario.erase id 10).2 = scenario.size ∧
      (scenario.erase id 10).1.count id 17 = scenario.count id 17 ∧
      (scenario.erase id 10).1.table_size = scenario.table_size :=
  have h := erase_spec id scenario 10 (WF.of_check (by decide))
  ⟨WF.of_check (by decide), by decide, by decide, by decide, by decide, by decide, h.1,
    h.2.2.2.1, h.2.2.2.2.1, h.2.2.2.2.2.1 17 (by decide), h.2.2.2.2.2.2.1⟩

end Contract

/-! ## Iteration and the invariants of reachable states -/

section Invariants

variable {Key : Type} [DecidableEq Key]

/-- C4: for every set reachable from default construction (`N ≥ 1`), iterating from
`begin()` with `++` reaches `end()` after exactly `size()` steps and not earlier; the
`j`-th position visited dereferences to the `j`-th key of the chains taken in bucket order
`0 .. table_size-1`, each chain from its head (empty buckets contribute nothing); the
range-based loop visits exactly this sequence; and a key occurs in it exactly when
`count(key) = 1`. -/
theorem iteration_spec (N : Nat) (hasher : Key → Nat) (s : ADS_set Key) (hN : 0 < N)
    (hr : Reachable N hasher s) :
    (Iterator.inc s.table)^[s.size] s.begin = s.end_ ∧
      (∀ j, j < s.size →
        Iterator.eq ((Iterator.inc s.table)^[j] s.begin) s.end_ = false ∧
          ((Iterator.inc s.table)^[j] s.begin).deref = s.table.flatten[j]?) ∧
      s.visit = s.table.flatten ∧
      s.table.flatten.length = s.size ∧
      ∀ k, k ∈ s.table.flatten ↔ s.count hasher k = 1 := by
  have hw := (hr.inv hN).wf
  have hsz := hw.size_eq_length_flatten
  refine ⟨?_, ?_, visit_eq_flatten s hw.length_eq, hsz.symm,
    fun k => (hw.count_one_iff_mem k).symm⟩
  · obtain ⟨hv, hrem⟩ := iterate_inc s hw.length_eq s.table.flatten.length (le_refl _)
    rw [List.drop_length] at hrem
    rw [hsz]
    exact Iterator.valid_of_remaining_nil s _ hw.length_eq hv hrem
  · intro j hj
    obtain ⟨hv, hrem⟩ := iterate_inc s hw.length_eq j (by omega)
    rw [List.drop_eq_getElem_cons (by omega)] at hrem
    obtain ⟨h1, h2, _⟩ := Iterator.valid_of_remaining_cons s _ _ _ hw.length_eq hv hrem
    refine ⟨h1, ?_⟩
    rw [h2, List.getElem?_eq_getElem]

/-- Instance of C4: the set holding 10, 3 in bucket 3 and 5 in bucket 5 (`N = 7`,
`hash(x) = x`) is visited as 10, 3, 5 and `end()` is reached after 3 steps. -/
theorem iteration_spec_witness :
    0 < 7 ∧ Reachable 7 id spread ∧
      spread.begin.deref = some 10 ∧
      (spread.begin.inc spread.table).deref = some 3 ∧
      ((spread.begin.inc spread.table).inc spread.table).deref = some 5 ∧
      (Iterator.inc spread.table)^[spread.size] spread.begin = spread.end_ ∧
      Iterator.eq ((Iterator.inc spread.table)^[2] spread.begin) spread.end_ = false ∧
      spread.visit = spread.table.flatten ∧
      spread.table.flatten.length = spread.size ∧
      (5 ∈ spread.table.flatten ↔ spread.count id 5 = 1) :=
  have hr : Reachable 7 id spread :=
    (show ((((ADS_set.ctor 7 : ADS_set Nat).insert 7 id 3).1.insert 7 id 10).1.insert 7 id 5).1
        = spread by decide) ▸
      Reachable.insert 5 (Reachable.insert 10 (Reachable.insert 3 Reachable.ctor))
  have h := iteration_spec 7 id spread (by decide) hr
  ⟨by decide, hr, by decide, by decide, by decide, h.1, (h.2.1 2 (by decide)).1, h.2.2.1,
    h.2.2.2.1, h.2.2.2.2 5⟩

theorem WF.placementInv {hasher : Key → Nat} {s : ADS_set Key} (hs : WF hasher s) :
    PlacementInv hasher s := by
  refine ⟨hs.length_eq, ?_, hs.nodup_flatten, hs.size_eq_length_flatten⟩
  intro i k hk
  have h := hs.placed i k hk
  exact ⟨by rw [← h]; exact Nat.mod_lt _ hs.pos, h.symm⟩

/-- C6: in every state reachable from default construction (`N ≥ 1`) by the public
operations, and in the state any internal `reserve` or `rehash` call leaves behind, every
stored key `k` sits in the chain of bucket `hasher(k) % table_size` for the current
`table_size`, no two stored elements hold equal keys, and `current_size` equals the
number of stored elements. -/
theorem placement_invariant (N : Nat) (hasher : Key → Nat) (s : ADS_set Key) (hN : 0 < N)
    (hr : Reachable N hasher s) :
    PlacementInv hasher s ∧
      ∀ n, PlacementInv hasher (s.reserve N hasher n) ∧
        PlacementInv hasher (s.rehash N hasher n) := by
  have hw := (hr.inv hN).wf
  exact ⟨hw.placementInv, fun n =>
    ⟨(hw.reserve N n).placementInv,
      (hw.rehash N n (lt_of_lt_of_le hN (le_max_left _ _))).placementInv⟩⟩

/-- Instance of C6: the set holding 3, 10, 17 (`N = 7`, `hash(x) = x`), and the 15 buckets
it has after `rehash(15)`, where 17 moves to bucket 2. -/
theorem placement_invariant_witness :
    0 < 7 ∧ Reachable 7 id scenario ∧
      (scenario.rehash 7 id 15).table
        = [[], [], [17], [3], [], [], [], [], [], [], [10], [], [], [], []] ∧
      PlacementInv id scenario ∧
      PlacementInv id (scenario.reserve 7 id 4) ∧
      PlacementInv id (scenario.rehash 7 id 15) :=
  have hr : Reachable 7 id scenario :=
    (show ((((ADS_set.ctor 7 : ADS_set Nat).insert 7 id 3).1.insert 7 id 10).1.insert 7 id 17).1
        = scenario by decide) ▸
      Reachable.insert 17 (Reachable.insert 10 (Reachable.insert 3 Reachable.ctor))
  have h := placement_invariant 7 id scenario (by decide) hr
  ⟨by decide, hr, by decide, h.1, (h.2 4).1, (h.2 15).2⟩

/-- C7: for every well-formed set (`N ≥ 1`) and every requested size `n`, `rehash(n)`
preserves membership and size: `count(k)` is the same before and after for every key `k`,
and `size()` is the same, `current_size` being reset to 0 and incremented once per
relinked element. -/
theorem rehash_preserves (N : Nat) (hasher : Key → Nat) (s : ADS_set Key) (n : Nat)
    (hN : 0 < N) (hs : WF hasher s) :
    (∀ k, (s.rehash N hasher n).count hasher k = s.count hasher k) ∧
      (s.rehash N hasher n).size = s.size ∧
      (s.rehash N hasher n).current_size = 0 + s.table.flatten.length := by
  have hpos : 0 < max N (max n (s.current_size * 10 / 7)) :=
    lt_of_lt_of_le hN (le_max_left _ _)
  refine ⟨fun k => hs.count_rehash N n hpos k, hs.rehash_current_size N n, ?_⟩
  rw [rehash_eq_foldl N hasher s n hs.length_eq, foldl_link_current_size]

/-- Instance of C7: rehashing the set holding 3, 10, 17 to 15 buckets. -/
theorem rehash_preserves_witness :
    0 < 7 ∧ WF id scenario ∧
      (scenario.rehash 7 id 15).table_size = 15 ∧
      (scenario.rehash 7 id 15).count id 10 = scenario.count id 10 ∧
      (scenario.rehash 7 id 15).count id 4 = scenario.count id 4 ∧
      (scenario.rehash 7 id 15).size = scenario.size :=
  have h := rehash_preserves 7 id scenario 15 (by decide) (WF.of_check (by decide))
  ⟨by decide, WF.of_check (by decide), by decide, h.1 10, h.1 4, h.2.1⟩

end Invariants

/-! ## Algebraic properties -/

section Algebra

variable {Key : Type} [DecidableEq Key]

theorem build_wf (N : Nat) (hasher : Key → Nat) (xs : List Key) (hN : 0 < N) :
    WF hasher (build N hasher xs) :=
  (WF.ctor hasher N hN).foldl_insert N xs

theorem build_mem_flatten (N : Nat) (hasher : Key → Nat) (xs : List Key) (hN : 0 < N)
    (k : Key) : k ∈ (build N hasher xs).table.flatten ↔ k ∈ xs := by
  rw [← (build_wf N hasher xs hN).count_one_iff_mem]
  unfold build
  rw [(WF.ctor hasher N hN).count_foldl_insert]
  have h0 : (ADS_set.ctor N : ADS_set Key).count hasher k = 0 := by
    rw [count_eq_zero_iff]
    simp [ADS_set.ctor, getD_replicate_nil]
  rw [h0]
  split <;> simp_all

/-- C8: if `xs` and `ys` are permutations of each other, the sets built by inserting `xs`
in order and by inserting `ys` in order into default-constructed sets (`N ≥ 1`) compare
equal under `operator==`, and `operator!=` is false, whatever the bucket layouts. -/
theorem eq_of_perm (N : Nat) (hasher : Key → Nat) (xs ys : List Key) (hN : 0 < N)
    (hp : xs.Perm ys) :
    ADS_set.eq hasher (build N hasher xs) (build N hasher ys) = true ∧
      ADS_set.ne hasher (build N hasher xs) (build N hasher ys) = false := by
  have ha := build_wf N hasher xs hN
  have hb := build_wf N hasher ys hN
  have hperm : (build N hasher xs).table.flatten.Perm (build N hasher ys).table.flatten := by
    rw [List.perm_ext_iff_of_nodup ha.nodup_flatten hb.nodup_flatten]
    intro k
    rw [build_mem_flatten N hasher xs hN, build_mem_flatten N hasher ys hN]
    exact hp.mem_iff
  have hsize : (build N hasher xs).current_size = (build N hasher ys).current_size := by
    have h1 := ha.size_eq_length_flatten
    have h2 := hb.size_eq_length_flatten
    unfold ADS_set.size at h1 h2
    rw [h1, h2]
    exact hperm.length_eq
  have heq : ADS_set.eq hasher (build N hasher xs) (build N hasher ys) = true := by
    unfold ADS_set.eq
    rw [if_neg (by simp [hsize]), visit_eq_flatten _ ha.length_eq, List.all_eq_true]
    intro k hk
    have : (build N hasher ys).count hasher k = 1 := by
      rw [hb.count_one_iff_mem]
      exact hperm.mem_iff.1 hk
    simp [this]
  exact ⟨heq, by unfold ADS_set.ne; rw [heq]; rfl⟩

/-- Instance of C8 with `N = 3`, `hash(x) = x`: the keys 4, 9, 1, 8 inserted in two orders
give different chains in bucket 1 but equal sets. -/
theorem eq_of_perm_witness :
    0 < 3 ∧ [4, 9, 1, 8].Perm [4, 9, 8, 1] ∧
      (build 3 id [4, 9, 1, 8]).table = [[], [8, 1], [9], [], [4], [], []] ∧
      (build 3 id [4, 9, 8, 1]).table = [[], [1, 8], [9], [], [4], [], []] ∧
      ADS_set.eq id (build 3 id [4, 9, 1, 8]) (build 3 id [4, 9, 8, 1]) = true ∧
      ADS_set.ne id (build 3 id [4, 9, 1, 8]) (build 3 id [4, 9, 8, 1]) = false :=
  ⟨by decide, by decide, by decide, by decide,
    eq_of_perm 3 id [4, 9, 1, 8] [4, 9, 8, 1] (by decide) (by decide)⟩

/-- C9: for a well-formed set and a key with `count(key) = 0`, `insert(key)` followed by
`erase(key)` gives a set with the same membership (`count(j)` equal for every key `j`) and
the same `size()`; `table_size` and the bucket layout may differ when the insert
rehashed. -/
theorem insert_erase_inverse (N : Nat) (hasher : Key → Nat) (s : ADS_set Key) (key : Key)
    (hs : WF hasher s) (hc : s.count hasher key = 0) :
    (∀ j, ((s.insert N hasher key).1.erase hasher key).1.count hasher j = s.count hasher j) ∧
      ((s.insert N hasher key).1.erase hasher key).1.size = s.size := by
  have hw := hs.insert N key
  constructor
  · intro j
    rw [hw.count_erase, hs.count_insert]
    split
    · next hj => rw [hj, hc]
    · rfl
  · have h1 := hw.erase_current_size key
    have h2 := hs.size_insert N key
    rw [erase_snd, hs.count_insert, if_pos rfl] at h1
    rw [hc] at h2
    unfold ADS_set.size at h2 ⊢
    omega

/-- Instance of C9: inserting 4 into the set holding 3 and 5 in 3 buckets rehashes to 7
buckets; erasing 4 again leaves 3 and 5 stored in 7 buckets. -/
theorem insert_erase_inverse_witness :
    WF id fullSmall ∧ fullSmall.count id 4 = 0 ∧
      ((fullSmall.insert 3 id 4).1.erase id 4).1
        = { table := [[], [], [], [3], [], [5], []], table_size := 7, current_size := 2 } ∧
      ((fullSmall.insert 3 id 4).1.erase id 4).1.count id 3 = fullSmall.count id 3 ∧
      ((fullSmall.insert 3 id 4).1.erase id 4).1.count id 4 = fullSmall.count id 4 ∧
      ((fullSmall.insert 3 id 4).1.erase id 4).1.size = fullSmall.size :=
  have h := insert_erase_inverse 3 id fullSmall 4 (WF.of_check (by decide)) (by decide)
  ⟨WF.of_check (by decide), by decide, by decide, h.1 3, h.1 4, h.2⟩

/-- C10: for every state and every finite sequence of keys (duplicates allowed), the bulk
`insert(first, last)` produces exactly the state (`table_size`, every chain with its
order, `current_size`) that calling the single-key `insert` on each key in the same
order produces. -/
theorem insertRange_eq_inserts (N : Nat) (hasher : Key → Nat) (s : ADS_set Key)
    (xs : List Key) :
    s.insertRange N hasher xs = xs.foldl (fun acc key => (acc.insert N hasher key).1) s := by
  induction xs generalizing s with
  | nil => rfl
  | cons key rest ih =>
    rw [List.foldl_cons, insert_fst]
    unfold ADS_set.insertRange
    split
    · exact ih _
    · exact ih _

end Algebra

/-! ## Lookup positions and `clear` -/

section Positions

variable {Key : Type} [DecidableEq Key]

theorem locateFrom_suffix (key : Key) (c : List Key) :
    ∃ front, c = front ++ locateFrom key c ∧ key ∉ front := by
  induction c with
  | nil => exact ⟨[], rfl, by simp⟩
  | cons k rest ih =>
    by_cases hk : k = key
    · exact ⟨[], by simp [locateFrom, hk], by simp⟩
    · obtain ⟨front, h1, h2⟩ := ih
      refine ⟨k :: front, ?_, ?_⟩
      · simp only [locateFrom, hk, if_false, List.cons_append]
        rw [← h1]
      · intro h
        rcases List.mem_cons.1 h with h | h
        · exact hk h.symm
        · exact h2 h

theorem find_of_present (hasher : Key → Nat) (s : ADS_set Key) (key : Key)
    (hc : s.count hasher key = 1) :
    s.find hasher key
      = { current_node := s.h hasher key
          current_element := s.locate hasher key
          table_end := s.table_size } := by
  have hl : s.locate hasher key ≠ [] :=
    (locate_ne_nil_iff hasher s key).2 ((count_eq_one_iff hasher s key).1 hc)
  unfold ADS_set.find
  rw [if_pos hl, Iterator.ctor_of_ne_nil _ _ _ _ hl]

theorem find_of_absent (hasher : Key → Nat) (s : ADS_set Key) (key : Key)
    (hc : s.count hasher key = 0) : s.find hasher key = s.end_ := by
  have hl : ¬ s.locate hasher key ≠ [] := fun h =>
    (count_eq_zero_iff hasher s key).1 hc ((locate_ne_nil_iff hasher s key).1 h)
  unfold ADS_set.find
  rw [if_neg hl]

theorem count_zero_or_one (hasher : Key → Nat) (s : ADS_set Key) (key : Key) :
    s.count hasher key = 0 ∨ s.count hasher key = 1 := by
  unfold ADS_set.count
  split
  · exact Or.inr rfl
  · exact Or.inl rfl

/-- C11: on a well-formed set, `count(key)` is 0 or 1; `find(key)` is `end()` (as a value and
under the iterator `operator==`) exactly when `count(key) = 0`; and when `count(key) = 1`,
`find(key)` is positioned at bucket `hasher(key) % table_size`, inside the table, on the
first element of that chain holding `key`, so that dereferencing it yields `key`. -/
theorem find_spec (hasher : Key → Nat) (s : ADS_set Key) (key : Key) (hs : WF hasher s) :
    (s.count hasher key = 0 ∨ s.count hasher key = 1) ∧
      (s.find hasher key = s.end_ ↔ s.count hasher key = 0) ∧
      (Iterator.eq (s.find hasher key) s.end_ = true ↔ s.count hasher key = 0) ∧
      (s.count hasher key = 1 →
        (s.find hasher key).current_node = hasher key % s.table_size ∧
          (s.find hasher key).current_node < s.table_size ∧
          (s.find hasher key).deref = some key ∧
          ∃ front, s.table.getD (hasher key % s.table_size) []
              = front ++ (s.find hasher key).current_element ∧ key ∉ front) := by
  have hne : s.count hasher key = 1 → Iterator.eq (s.find hasher key) s.end_ = false := by
    intro hc
    have hl : s.locate hasher key ≠ [] :=
      (locate_ne_nil_iff hasher s key).2 ((count_eq_one_iff hasher s key).1 hc)
    rw [find_of_present hasher s key hc, end_eq]
    simp [Iterator.eq, hl]
  refine ⟨count_zero_or_one hasher s key, ?_, ?_, ?_⟩
  · constructor
    · intro h
      rcases count_zero_or_one hasher s key with h0 | h1
      · exact h0
      · have := hne h1
        rw [h] at this
        simp [Iterator.eq] at this
    · exact find_of_absent hasher s key
  · constructor
    · intro h
      rcases count_zero_or_one hasher s key with h0 | h1
      · exact h0
      · rw [hne h1] at h
        exact absurd h (by simp)
    · intro h0
      rw [find_of_absent hasher s key h0]
      simp [Iterator.eq]
  · intro hc
    have hl : s.locate hasher key ≠ [] :=
      (locate_ne_nil_iff hasher s key).2 ((count_eq_one_iff hasher s key).1 hc)
    rw [find_of_present hasher s key hc]
    refine ⟨rfl, Nat.mod_lt _ hs.pos, locateFrom_head key _ hl, ?_⟩
    exact locateFrom_suffix key _

/-- Instance of C11 on the set holding 3, 10, 17 in bucket 3 of 7: `find(10)` points to the
second element of the chain, `find(4)` is `end()`. -/
theorem find_spec_witness :
    WF id scenario ∧
      scenario.find id 10 = { current_node := 3, current_element := [10, 3], table_end := 7 } ∧
      scenario.find id 4 = scenario.end_ ∧
      (scenario.find id 10 = scenario.end_ ↔ scenario.count id 10 = 0) ∧
      (Iterator.eq (scenario.find id 4) scenario.end_ = true ↔ scenario.count id 4 = 0) ∧
      (scenario.find id 10).current_node = id 10 % scenario.table_size ∧
      (scenario.find id 10).deref = some 10 :=
  have h := find_spec id scenario 10 (WF.of_check (by decide))
  have h4 := find_spec id scenario 4 (WF.of_check (by decide))
  ⟨WF.of_check (by decide), by decide, by decide, h.2.1, h4.2.2.1,
    (h.2.2.2 (by decide)).1, (h.2.2.2 (by decide)).2.2.1⟩

/-- C12: whatever the contents and the bucket count of a set, after `clear()` its state is
the state of a default-constructed set: `table_size = N`, `size() = 0`, `empty()` is true,
the table has `N` buckets, every chain is empty, and `count(k) = 0` for every key. -/
theorem clear_spec (N : Nat) (hasher : Key → Nat) (s : ADS_set Key) :
    s.clear N = ADS_set.ctor N ∧
      (s.clear N).table_size = N ∧
      (s.clear N).size = 0 ∧
      (s.clear N).empty = true ∧
      (s.clear N).table.length = N ∧
      (∀ i, (s.clear N).table.getD i [] = []) ∧
      (s.clear N).table.flatten = [] ∧
      ∀ k, (s.clear N).count hasher k = 0 := by
  have hc : s.clear N = ADS_set.ctor N := rfl
  rw [hc]
  refine ⟨rfl, rfl, rfl, rfl, ?_, ?_, ?_, ?_⟩
  · simp [ADS_set.ctor]
  · intro i
    exact getD_replicate_nil N i
  · simp [ADS_set.ctor]
  · intro k
    rw [count_eq_zero_iff]
    simp [ADS_set.ctor, getD_replicate_nil]

end Positions

/-! ## Equality of sets and copying -/

section Copying

variable {Key : Type} [DecidableEq Key]

theorem WF.count_eq_iff_mem {hasher : Key → Nat} {a b : ADS_set Key} (ha : WF hasher a)
    (hb : WF hasher b) :
    (∀ k, a.count hasher k = b.count hasher k)
      ↔ ∀ k, k ∈ a.table.flatten ↔ k ∈ b.table.flatten := by
  constructor
  · intro h k
    rw [← ha.count_one_iff_mem, ← hb.count_one_iff_mem, h k]
  · intro h k
    by_cases hk : k ∈ a.table.flatten
    · rw [(ha.count_one_iff_mem k).2 hk, (hb.count_one_iff_mem k).2 ((h k).1 hk)]
    · rw [(ha.count_zero_iff_not_mem k).2 hk,
        (hb.count_zero_iff_not_mem k).2 (fun hb' => hk ((h k).2 hb'))]

/-- On well-formed sets the size test together with the one-sided inclusion loop of
`operator==` decides equality of membership. -/
theorem WF.eq_true_iff {hasher : Key → Nat} {a b : ADS_set Key} (ha : WF hasher a)
    (hb : WF hasher b) :
    ADS_set.eq hasher a b = true ↔ ∀ k, a.count hasher k = b.count hasher k := by
  rw [ha.count_eq_iff_mem hb]
  have hla := ha.size_eq_length_flatten
  have hlb := hb.size_eq_length_flatten
  unfold ADS_set.size at hla hlb
  unfold ADS_set.eq
  rw [visit_eq_flatten a ha.length_eq]
  constructor
  · intro h
    by_cases hsz : a.current_size = b.current_size
    · rw [if_neg (by simp [hsz]), List.all_eq_true] at h
      have hsub : a.table.flatten ⊆ b.table.flatten := by
        intro k hk
        have := h k hk
        simp only [ne_eq, decide_eq_true_eq] at this
        rcases count_zero_or_one hasher b k with h0 | h1
        · exact absurd h0 this
        · exact (hb.count_one_iff_mem k).1 h1
      have hperm : a.table.flatten.Perm b.table.flatten :=
        (List.subperm_of_subset ha.nodup_flatten hsub).perm_of_length_le (by omega)
      exact fun k => hperm.mem_iff
    · rw [if_pos hsz] at h
      exact absurd h (by simp)
  · intro h
    have hperm : a.table.flatten.Perm b.table.flatten :=
      (List.perm_ext_iff_of_nodup ha.nodup_flatten hb.nodup_flatten).2 h
    have hlen := hperm.length_eq
    rw [if_neg (by simp; omega), List.all_eq_true]
    intro k hk
    have : b.count hasher k = 1 := (hb.count_one_iff_mem k).2 ((h k).1 hk)
    simp [this]

theorem filter_flatten_of_placed (f : Key → Nat) (t : List (List Key)) (off i : Nat)
    (hpl : ∀ j k, k ∈ t.getD j [] → f k = off + j) :
    t.flatten.filter (fun k => decide (f k = off + i)) = t.getD i [] := by
  induction t generalizing off i with
  | nil => rfl
  | cons c t ih =>
    rw [List.flatten_cons, List.filter_append]
    have hc : ∀ k, k ∈ c → f k = off := fun k hk => by simpa using hpl 0 k hk
    have ht : ∀ j k, k ∈ t.getD j [] → f k = (off + 1) + j := fun j k hk => by
      have := hpl (j + 1) k hk
      omega
    cases i with
    | zero =>
      have h1 : c.filter (fun k => decide (f k = off + 0)) = c :=
        List.filter_eq_self.2 (fun k hk => by simp [hc k hk])
      have h2 : t.flatten.filter (fun k => decide (f k = off + 0)) = [] := by
        rw [List.filter_eq_nil_iff]
        intro k hk
        obtain ⟨j, hj⟩ := (mem_flatten_iff_getD t k).1 hk
        have := ht j k hj
        simp only [decide_eq_true_eq]
        omega
      rw [h1, h2, List.append_nil]
      rfl
    | succ i =>
      have h1 : c.filter (fun k => decide (f k = off + (i + 1))) = [] := by
        rw [List.filter_eq_nil_iff]
        intro k hk
        have := hc k hk
        simp only [decide_eq_true_eq]
        omega
      have e : off + (i + 1) = (off + 1) + i := by omega
      rw [h1, List.nil_append, e, ih (off + 1) i ht]
      rfl

theorem WF.filter_flatten {hasher : Key → Nat} {s : ADS_set Key} (hs : WF hasher s)
    (i : Nat) :
    s.table.flatten.filter (fun k => decide (hasher k % s.table_size = i))
      = s.table.getD i [] := by
  have h := filter_flatten_of_placed (fun k => hasher k % s.table_size) s.table 0 i
    (fun j k hk => by
      have := hs.placed j k hk
      simp only
      omega)
  simpa using h

theorem ctor_rehash_eq (N : Nat) (hasher : Key → Nat) (n : Nat) :
    (ADS_set.ctor N : ADS_set Key).rehash N hasher n
      = { table := List.replicate (max N n) [], table_size := max N n, current_size := 0 } := by
  rw [rehash_eq_foldl N hasher _ n (by simp [ADS_set.ctor])]
  have hf : (ADS_set.ctor N : ADS_set Key).table.flatten = [] := by
    simp [ADS_set.ctor]
  rw [hf]
  simp [ADS_set.ctor]

/-- Single-key inserts of pairwise different absent keys that fit under the load factor
never grow the table: each of them links its key. -/
theorem WF.foldl_insert_fits {hasher : Key → Nat} {s : ADS_set Key} (hs : WF hasher s)
    (N : Nat) (ks : List Key) (hnd : ks.Nodup) (habs : ∀ k ∈ ks, s.count hasher k = 0)
    (hfit : 10 * (s.current_size + ks.length) ≤ 7 * s.table_size) :
    ks.foldl (fun acc k => (acc.insert N hasher k).1) s = ks.foldl (ADS_set.link hasher) s := by
  induction ks generalizing s with
  | nil => rfl
  | cons k ks ih =>
    have hk := habs k (List.mem_cons_self _ _)
    obtain ⟨hk1, hk2⟩ := List.nodup_cons.1 hnd
    simp only [List.length_cons] at hfit
    rw [List.foldl_cons, List.foldl_cons, insert_of_absent N hasher s k hs hk]
    simp only
    rw [reserve_of_fits N hasher s _ (by omega)]
    refine ih (hs.link k hk) hk2 ?_ ?_
    · intro j hj
      have hjk : ¬ j = k := fun h => hk1 (by rw [← h]; exact hj)
      rw [count_link hasher s k j hs.length_eq hs.pos, if_neg hjk]
      exact habs j (List.mem_cons_of_mem _ hj)
    · simp only [ADS_set.link]
      omega

end Copying

/-! ## The copy constructor and `operator==` -/

section CopyEq

variable {Key : Type} [DecidableEq Key]

theorem Reachable.foldl_insert_reachable {N : Nat} {hasher : Key → Nat} {s : ADS_set Key}
    (hr : Reachable N hasher s) (xs : List Key) :
    Reachable N hasher (xs.foldl (fun acc key => (acc.insert N hasher key).1) s) := by
  induction xs generalizing s with
  | nil => exact hr
  | cons key rest ih => exact ih (Reachable.insert key hr)

theorem build_reachable (N : Nat) (hasher : Key → Nat) (xs : List Key) :
    Reachable N hasher (build N hasher xs) :=
  Reachable.ctor.foldl_insert_reachable xs

/-- C13: for every reachable (hence well-formed) source set `s` with `N ≥ 1`, the copy
constructor yields a set with `table_size = s.table_size`: its sizing call leaves an empty
table of that size, into which the keys of `s` are re-added in the iteration order of
`s`; the table keeps this size after every one of these additions, and inserting the keys
with the growth check of `insert` gives the same state, so no rehash moves a key during
the copy.  Every chain of the copy is the chain of `s` at the same index in reversed
order; the copy has the size of `s` and compares equal to `s` under `operator==`. -/
theorem copy_spec (N : Nat) (hasher : Key → Nat) (s : ADS_set Key) (hN : 0 < N)
    (hr : Reachable N hasher s) :
    (ADS_set.copy N hasher s).table_size = s.table_size ∧
      (ADS_set.ctor N : ADS_set Key).rehash N hasher s.table_size
        = (ADS_set.mk (List.replicate s.table_size []) s.table_size 0 : ADS_set Key) ∧
      ADS_set.copy N hasher s
        = s.visit.foldl (fun acc k => (acc.add hasher k).1)
            (ADS_set.mk (List.replicate s.table_size []) s.table_size 0 : ADS_set Key) ∧
      ADS_set.copy N hasher s
        = s.visit.foldl (fun acc k => (acc.insert N hasher k).1)
            (ADS_set.mk (List.replicate s.table_size []) s.table_size 0 : ADS_set Key) ∧
      (∀ ks, ks <+: s.visit →
        (ks.foldl (fun acc k => (acc.add hasher k).1)
            (ADS_set.mk (List.replicate s.table_size []) s.table_size 0 : ADS_set Key)).table_size
          = s.table_size) ∧
      (∀ i, (ADS_set.copy N hasher s).table.getD i [] = (s.table.getD i []).reverse) ∧
      (ADS_set.copy N hasher s).size = s.size ∧
      ADS_set.eq hasher (ADS_set.copy N hasher s) s = true := by
  have hinv := hr.inv hN
  have hw := hinv.wf
  have hmax : max N s.table_size = s.table_size := max_eq_right hinv.min_size
  have hre : (ADS_set.ctor N : ADS_set Key).rehash N hasher s.table_size
      = (ADS_set.mk (List.replicate s.table_size []) s.table_size 0 : ADS_set Key) := by
    rw [ctor_rehash_eq, hmax]
  have hwe : WF hasher (ADS_set.mk (List.replicate s.table_size []) s.table_size 0 : ADS_set Key) :=
    WF.ctor hasher s.table_size hw.pos
  have habs : ∀ k,
      (ADS_set.mk (List.replicate s.table_size []) s.table_size 0 : ADS_set Key).count hasher k
        = 0 := by
    intro k
    rw [count_eq_zero_iff]
    simp [getD_replicate_nil]
  have hvis := visit_eq_flatten s hw.length_eq
  have hcopy : ADS_set.copy N hasher s
      = s.visit.foldl (fun acc k => (acc.add hasher k).1)
          (ADS_set.mk (List.replicate s.table_size []) s.table_size 0 : ADS_set Key) := by
    unfold ADS_set.copy
    rw [hre]
  have hadd := hwe.foldl_add s.table.flatten hw.nodup_flatten (fun k _ => habs k)
  have hlink : ADS_set.copy N hasher s
      = s.table.flatten.foldl (ADS_set.link hasher)
          (ADS_set.mk (List.replicate s.table_size []) s.table_size 0 : ADS_set Key) := by
    rw [hcopy, hvis, hadd.1]
  have hbucket : ∀ i, (ADS_set.copy N hasher s).table.getD i []
      = (s.table.getD i []).reverse := by
    intro i
    rw [hlink, foldl_link_getD hasher
      (ADS_set.mk (List.replicate s.table_size []) s.table_size 0) s.table.flatten i
      (by simp) hw.pos]
    simp only [getD_replicate_nil, List.append_nil]
    rw [hw.filter_flatten i]
  have hwc : WF hasher (ADS_set.copy N hasher s) := by
    rw [hlink]
    exact hadd.2
  refine ⟨?_, hre, hcopy, ?_, ?_, hbucket, ?_, ?_⟩
  · rw [hlink, foldl_link_table_size]
  · rw [hlink, hvis]
    refine (hwe.foldl_insert_fits N s.table.flatten hw.nodup_flatten (fun k _ => habs k) ?_).symm
    have h1 := hinv.load
    have h2 := hw.size_eq_length_flatten
    unfold ADS_set.size at h2
    simp only
    omega
  · intro ks hks
    rw [hvis] at hks
    have h := hwe.foldl_add ks (hw.nodup_flatten.sublist hks.sublist) (fun k _ => habs k)
    rw [h.1, foldl_link_table_size]
  · have h2 := hw.size_eq_length_flatten
    unfold ADS_set.size at h2 ⊢
    rw [hlink, foldl_link_current_size, h2]
    simp
  · rw [hwc.eq_true_iff hw, hwc.count_eq_iff_mem hw]
    intro k
    rw [mem_flatten_iff_getD, mem_flatten_iff_getD]
    constructor
    · rintro ⟨i, hi⟩
      rw [hbucket i] at hi
      exact ⟨i, List.mem_reverse.1 hi⟩
    · rintro ⟨i, hi⟩
      exact ⟨i, by rw [hbucket i]; exact List.mem_reverse.2 hi⟩

/-- Instance of C13 with `N = 3`, `hash(x) = x`: the set holding 4, 9, 1, 8 in 7 buckets is
copied into 7 buckets, the chain [8, 1] of bucket 1 becoming [1, 8]. -/
theorem copy_spec_witness :
    0 < 3 ∧ Reachable 3 id grown ∧
      ADS_set.copy 3 id grown
        = { table := [[], [1, 8], [9], [], [4], [], []], table_size := 7, current_size := 4 } ∧
      (ADS_set.copy 3 id grown).table_size = grown.table_size ∧
      (ADS_set.copy 3 id grown).table.getD 1 [] = (grown.table.getD 1 []).reverse ∧
      (ADS_set.copy 3 id grown).size = grown.size ∧
      ADS_set.eq id (ADS_set.copy 3 id grown) grown = true :=
  have hr : Reachable 3 id grown :=
    (show build 3 id [4, 9, 1, 8] = grown by decide) ▸ build_reachable 3 id [4, 9, 1, 8]
  have h := copy_spec 3 id grown (by decide) hr
  ⟨by decide, hr, by decide, h.1, h.2.2.2.2.2.1 1, h.2.2.2.2.2.2.1, h.2.2.2.2.2.2.2⟩

/-- C20: on well-formed sets `operator==`, which tests the sizes and one inclusion only,
decides equality of membership: `a == b` holds exactly when `count` agrees on every key.
Hence it is reflexive, symmetric and transitive, and its result does not change when an
operand is replaced by a set with the same members in another table size or layout. -/
theorem eq_decides_membership (hasher : Key → Nat) (a b : ADS_set Key)
    (ha : WF hasher a) (hb : WF hasher b) :
    (ADS_set.eq hasher a b = true ↔ ∀ k, a.count hasher k = b.count hasher k) ∧
      ADS_set.eq hasher a a = true ∧
      ADS_set.eq hasher a b = ADS_set.eq hasher b a ∧
      (∀ c, WF hasher c → ADS_set.eq hasher a b = true → ADS_set.eq hasher b c = true →
        ADS_set.eq hasher a c = true) ∧
      (∀ c, WF hasher c → (∀ k, c.count hasher k = a.count hasher k) →
        ADS_set.eq hasher c b = ADS_set.eq hasher a b ∧
          ADS_set.eq hasher b c = ADS_set.eq hasher b a) := by
  have hsymm : ∀ x y : ADS_set Key, WF hasher x → WF hasher y →
      ADS_set.eq hasher x y = ADS_set.eq hasher y x := by
    intro x y hx hy
    rw [Bool.eq_iff_iff, hx.eq_true_iff hy, hy.eq_true_iff hx]
    exact ⟨fun h k => (h k).symm, fun h k => (h k).symm⟩
  have hrepl : ∀ c, WF hasher c → (∀ k, c.count hasher k = a.count hasher k) →
      ADS_set.eq hasher c b = ADS_set.eq hasher a b := by
    intro c hc hca
    rw [Bool.eq_iff_iff, hc.eq_true_iff hb, ha.eq_true_iff hb]
    exact ⟨fun h k => by rw [← hca k, h k], fun h k => by rw [hca k, h k]⟩
  refine ⟨ha.eq_true_iff hb, (ha.eq_true_iff ha).2 (fun _ => rfl), hsymm a b ha hb, ?_, ?_⟩
  · intro c hc hab hbc
    rw [ha.eq_true_iff hb] at hab
    rw [hb.eq_true_iff hc] at hbc
    rw [ha.eq_true_iff hc]
    exact fun k => (hab k).trans (hbc k)
  · intro c hc hca
    refine ⟨hrepl c hc hca, ?_⟩
    rw [hsymm b c hb hc, hsymm b a hb ha]
    exact hrepl c hc hca

/-- Instance of C20: the keys 3 and 5 stored in 3 buckets and in 7 buckets are equal sets;
the set holding 3, 10, 17 differs from both. -/
theorem eq_decides_membership_witness :
    WF id fullSmall ∧ WF id fullSmallWide ∧
      ADS_set.eq id fullSmall fullSmallWide = true ∧
      ADS_set.eq id fullSmall scenario = false ∧
      (ADS_set.eq id fullSmall fullSmallWide = true
        ↔ ∀ k, fullSmall.count id k = fullSmallWide.count id k) ∧
      ADS_set.eq id fullSmall fullSmall = true ∧
      ADS_set.eq id fullSmall fullSmallWide = ADS_set.eq id fullSmallWide fullSmall :=
  have h := eq_decides_membership id fullSmall fullSmallWide
    (WF.of_check (by decide)) (WF.of_check (by decide))
  ⟨WF.of_check (by decide), WF.of_check (by decide), by decide, by decide, h.1, h.2.1,
    h.2.2.1⟩

end CopyEq

/-! ## Bucket bounds, prepending and growth on insert -/

section Growth

variable {Key : Type} [DecidableEq Key]

/-- C14: in every state reachable from default construction by the public operations,
`table_size ≥ N`; hence for `N ≥ 1` the modulus of `h(key) = hasher(key) % table_size` is
not zero and the index is smaller than `table_size`, the number of buckets of the table,
so every bucket access of `locate`, `add`, `erase` and `find` is in bounds. -/
theorem table_size_ge_min (N : Nat) (hasher : Key → Nat) (s : ADS_set Key)
    (hr : Reachable N hasher s) :
    N ≤ s.table_size ∧
      (0 < N → 0 < s.table_size ∧ s.table.length = s.table_size ∧
        ∀ key, s.h hasher key < s.table_size ∧ s.h hasher key < s.table.length) := by
  constructor
  · rcases Nat.eq_zero_or_pos N with h0 | hN
    · rw [h0]; exact Nat.zero_le _
    · exact (hr.inv hN).min_size
  · intro hN
    have hw := (hr.inv hN).wf
    refine ⟨hw.pos, hw.length_eq, fun key => ?_⟩
    have : s.h hasher key < s.table_size := Nat.mod_lt _ hw.pos
    exact ⟨this, by rw [hw.length_eq]; exact this⟩

/-- Instance of C14 with `N = 3`: the set holding 4, 9, 1, 8 has 7 buckets and key 8 is
looked up in bucket 1. -/
theorem table_size_ge_min_witness :
    Reachable 3 id grown ∧ 3 ≤ grown.table_size ∧ 0 < grown.table_size ∧
      grown.h id 8 = 1 ∧ grown.h id 8 < grown.table_size ∧
      grown.h id 8 < grown.table.length :=
  have hr : Reachable 3 id grown :=
    (show build 3 id [4, 9, 1, 8] = grown by decide) ▸ build_reachable 3 id [4, 9, 1, 8]
  have h := table_size_ge_min 3 id grown hr
  ⟨hr, h.1, (h.2 (by decide)).1, by decide, ((h.2 (by decide)).2.2 8).1,
    ((h.2 (by decide)).2.2 8).2⟩

/-- C15: new elements are prepended.  For a well-formed set and an absent key, after
`insert(key)` the chain of bucket `hasher(key) % table_size`, taken in the table as it is
after the `reserve` step, starts with `key` followed by the elements that chain held
after the `reserve` step in unchanged order, and all other buckets are as the `reserve`
step left them; when `reserve` did not rehash (the table already had room) this is the
table before the call, so all other buckets are unchanged. -/
theorem insert_prepends (N : Nat) (hasher : Key → Nat) (s : ADS_set Key) (key : Key)
    (hs : WF hasher s) (hc : s.count hasher key = 0) :
    (s.insert N hasher key).1.table_size
        = (s.reserve N hasher (s.current_size + 1)).table_size ∧
      (s.insert N hasher key).1.table.getD
          (hasher key % (s.insert N hasher key).1.table_size) []
        = key :: (s.reserve N hasher (s.current_size + 1)).table.getD
            (hasher key % (s.insert N hasher key).1.table_size) [] ∧
      (∀ j, j ≠ hasher key % (s.insert N hasher key).1.table_size →
        (s.insert N hasher key).1.table.getD j []
          = (s.reserve N hasher (s.current_size + 1)).table.getD j []) ∧
      (10 * (s.current_size + 1) ≤ 7 * s.table_size →
        s.reserve N hasher (s.current_size + 1) = s ∧
          (s.insert N hasher key).1.table.getD (hasher key % s.table_size) []
            = key :: s.table.getD (hasher key % s.table_size) [] ∧
          ∀ j, j ≠ hasher key % s.table_size →
            (s.insert N hasher key).1.table.getD j [] = s.table.getD j []) := by
  have hw := hs.reserve N (s.current_size + 1)
  have hins : (s.insert N hasher key).1
      = (s.reserve N hasher (s.current_size + 1)).link hasher key := by
    rw [insert_of_absent N hasher s key hs hc]
  have hts : (s.insert N hasher key).1.table_size
      = (s.reserve N hasher (s.current_size + 1)).table_size := by
    rw [hins]; rfl
  have hget : ∀ j, (s.insert N hasher key).1.table.getD j []
      = if hasher key % (s.reserve N hasher (s.current_size + 1)).table_size = j then
          key :: (s.reserve N hasher (s.current_size + 1)).table.getD j []
        else (s.reserve N hasher (s.current_size + 1)).table.getD j [] := by
    intro j
    rw [hins, link_getD hasher _ key j hw.length_eq hw.pos]
  refine ⟨hts, ?_, ?_, ?_⟩
  · rw [hget, hts, if_pos rfl]
  · intro j hj
    rw [hts] at hj
    rw [hget, if_neg (fun h => hj h.symm)]
  · intro hfit
    have hres := reserve_of_fits N hasher s (s.current_size + 1) hfit
    rw [hres] at hget
    refine ⟨hres, ?_, ?_⟩
    · rw [hget, if_pos rfl]
    · intro j hj
      rw [hget, if_neg (fun h => hj h.symm)]

/-- Instance of C15, the scenario `N = 7`, `hash(x) = x`: inserting 3, 10, 17 in this order
gives size 3, `count(10) = 1`, bucket 3 = [17, 10, 3] and all other buckets empty; the
last insert puts 17 in front of [10, 3]. -/
theorem insert_prepends_witness :
    WF id (build 7 id [3, 10]) ∧ (build 7 id [3, 10]).count id 17 = 0 ∧
      ((build 7 id [3, 10]).insert 7 id 17).1 = build 7 id [3, 10, 17] ∧
      (build 7 id [3, 10, 17]).size = 3 ∧
      (build 7 id [3, 10, 17]).count id 10 = 1 ∧
      (build 7 id [3, 10, 17]).table = [[], [], [], [17, 10, 3], [], [], []] ∧
      (build 7 id [3, 10]).table.getD 3 [] = [10, 3] ∧
      ((build 7 id [3, 10]).insert 7 id 17).1.table.getD
          (id 17 % (build 7 id [3, 10]).table_size) []
        = 17 :: (build 7 id [3, 10]).table.getD
            (id 17 % (build 7 id [3, 10]).table_size) [] ∧
      ((build 7 id [3, 10]).insert 7 id 17).1.table.getD 5 []
        = (build 7 id [3, 10]).table.getD 5 [] :=
  have h := insert_prepends 7 id (build 7 id [3, 10]) 17 (WF.of_check (by decide)) (by decide)
  ⟨WF.of_check (by decide), by decide, by decide, by decide, by decide, by decide, by decide,
    (h.2.2.2 (by decide)).2.1, (h.2.2.2 (by decide)).2.2 5 (by decide)⟩

end Growth

/-! ## The sizes chosen by `reserve` and `rehash`, and the order of relinking -/

section Sizing

variable {Key : Type} [DecidableEq Key]

end Sizing

/-! ## The order in which `rehash` relinks -/

section Relinking

variable {Key : Type} [DecidableEq Key]

theorem WF.flatten_eq_nil_of_size {hasher : Key → Nat} {s : ADS_set Key} (hs : WF hasher s)
    (h0 : s.current_size = 0) : s.table.flatten = [] := by
  have h := hs.size_eq_length_flatten
  unfold ADS_set.size at h
  exact List.length_eq_zero.1 (by omega)

/-- The chains after `rehash(n)` of a well-formed state, for every `N` and `n`. -/
theorem WF.rehash_getD_any {hasher : Key → Nat} {s : ADS_set Key} (hs : WF hasher s)
    (N n j : Nat) :
    (s.rehash N hasher n).table.getD j []
      = (s.table.flatten.filter
          (fun k => decide (hasher k % (s.rehash N hasher n).table_size = j))).reverse := by
  rw [rehash_table_size N hasher s n hs.length_eq]
  rcases Nat.eq_zero_or_pos (max N (max n (s.current_size * 10 / 7))) with h0 | hpos
  · have hc : s.current_size * 10 / 7 = 0 := by
      have h1 : s.current_size * 10 / 7 ≤ max N (max n (s.current_size * 10 / 7)) :=
        le_trans (le_max_right _ _) (le_max_right _ _)
      omega
    have hcs : s.current_size = 0 := by
      have h2 := Nat.div_add_mod (s.current_size * 10) 7
      have h3 := Nat.mod_lt (s.current_size * 10) (by decide : 0 < 7)
      omega
    rw [rehash_eq_foldl N hasher s n hs.length_eq, hs.flatten_eq_nil_of_size hcs, h0]
    rfl
  · exact rehash_getD N hasher s n j hs.length_eq hpos

/-- C19: `rehash(n)` of a well-formed state relinks the elements in old-bucket order with
prepending: the new chain of every new bucket `j` is the reverse of the sequence obtained
by walking the old buckets `0 .. old_table_size-1` in index order, each old chain in its
order, and keeping the keys whose new index `hasher(key) % new_table_size` is `j`.  In
particular the elements of one old chain that meet again in a new chain appear there in
reversed relative order. -/
theorem rehash_order (N : Nat) (hasher : Key → Nat) (s : ADS_set Key) (n : Nat)
    (hs : WF hasher s) :
    (∀ j, (s.rehash N hasher n).table.getD j []
        = ((((List.range s.table_size).map (fun i => s.table.getD i [])).flatten).filter
            (fun k => decide (hasher k % (s.rehash N hasher n).table_size = j))).reverse) ∧
      ((List.range s.table_size).map (fun i => s.table.getD i [])).flatten
        = s.table.flatten ∧
      ∀ i j, (((s.table.getD i []).filter
          (fun k => decide (hasher k % (s.rehash N hasher n).table_size = j))).reverse).Sublist
        ((s.rehash N hasher n).table.getD j []) := by
  have hwalk : ((List.range s.table_size).map (fun i => s.table.getD i [])).flatten
      = s.table.flatten := by
    rw [← hs.length_eq, map_range_getD]
  refine ⟨fun j => by rw [hwalk]; exact hs.rehash_getD_any N n j, hwalk, ?_⟩
  intro i j
  rw [hs.rehash_getD_any N n j]
  apply List.Sublist.reverse
  apply List.Sublist.filter
  by_cases hi : i < s.table.length
  · rw [List.getD_eq_getElem _ _ hi]
    exact List.sublist_flatten_of_mem (List.getElem_mem _)
  · rw [getD_of_length_le _ _ (by omega)]
    exact List.nil_sublist _

/-- Instance of C19 on the set with bucket 3 = [17, 10, 3] (`N = 7`, `hash(x) = x`):
`rehash(0)` keeps 7 buckets and reverses the chain to [3, 10, 17]; `rehash(14)` moves 10
to bucket 10 and leaves [3, 17] in bucket 3. -/
theorem rehash_order_witness :
    WF id scenario ∧
      (scenario.rehash 7 id 0).table = [[], [], [], [3, 10, 17], [], [], []] ∧
      (scenario.rehash 7 id 14).table
        = [[], [], [], [3, 17], [], [], [], [], [], [], [10], [], [], []] ∧
      (scenario.rehash 7 id 14).table.getD 3 []
        = ((((List.range scenario.table_size).map
              (fun i => scenario.table.getD i [])).flatten).filter
            (fun k => decide (id k % (scenario.rehash 7 id 14).table_size = 3))).reverse ∧
      (((scenario.table.getD 3 []).filter
          (fun k => decide (id k % (scenario.rehash 7 id 14).table_size = 3))).reverse).Sublist
        ((scenario.rehash 7 id 14).table.getD 3 []) :=
  have h := rehash_order 7 id scenario 14 (WF.of_check (by decide))
  ⟨WF.of_check (by decide), by decide, by decide, h.1 3, h.2.2 3 3⟩

end Relinking

end ADS
